import Mathlib

/-!
Verification development for the music-score simplifier pipeline.

The JavaScript source is shallowly embedded: JS floating-point beat
positions become exact rationals (`ℚ`), tick counts become integers,
arrays become lists, and in-place mutation becomes explicit state
passing.  JS `Array.prototype.sort` with a numeric comparator is stable
in modern engines and is modelled by `List.insertionSort` with a `≤`
relation (which is stable).  JS `Map` preserves insertion order and is
modelled by insertion-ordered association lists.
-/

namespace MSS

/-- JS `Math.round`: round half toward positive infinity. -/
def jsRound (q : ℚ) : ℤ := ⌊q + 1/2⌋

/-- Truncation toward zero, as JS number-to-integer conversion uses. -/
def ratTrunc (q : ℚ) : ℤ := if q < 0 then -⌊-q⌋ else ⌊q⌋

/-- JS `%` operator on numbers (truncated division remainder).
JS `x % 0` is `NaN`; we return `x` there, which only matters for
degenerate zero-valued tuplet ratios that the parser never produces. -/
def jsMod (a b : ℚ) : ℚ := if b = 0 then a else a - (ratTrunc (a / b) : ℚ) * b

/-- Pitch: step letter, octave, chromatic alteration (src/types, parser). -/
structure Pitch where
  step : Char
  octave : ℤ
  alter : ℤ
deriving DecidableEq, Repr

/-- `PITCH_TO_SEMITONE` lookup with the JS `|| 0` fallback (knowledge/index.js). -/
def pitchStepSemitone : Char → ℤ
  | 'C' => 0
  | 'D' => 2
  | 'E' => 4
  | 'F' => 5
  | 'G' => 7
  | 'A' => 9
  | 'B' => 11
  | _ => 0

/-- `pitchToMidi` from knowledge/index.js.  The JS reads
`pitch.octave || 4`, so a (nonsensical) octave 0 falls back to 4. -/
def pitchToMidi (p : Pitch) : ℤ :=
  let octave := if p.octave = 0 then 4 else p.octave
  (octave + 1) * 12 + pitchStepSemitone p.step + p.alter

/-- Note-value names used by the pipeline (`'32nd'` is spelled `d32nd`). -/
inductive DurType where
  | whole | half | quarter | eighth | sixteenth | d32nd | d64th
deriving DecidableEq, Repr

structure Tuplet where
  actual : ℤ
  normal : ℤ
deriving DecidableEq, Repr

/-- Duration record: display `type`/`dots` plus authoritative `ticks`
(quarter note = 1024 ticks), with optional tuplet ratio. -/
structure Duration where
  type : DurType
  dots : ℕ
  ticks : ℤ
  tuplet : Option Tuplet
deriving DecidableEq, Repr

inductive VoicePart where
  | soprano | alto | tenor | bass
deriving DecidableEq, Repr

/-- Note as produced by the parser and transformed by the pipeline.
`tiedTo` abstracts the JS `'pending' | null` tie marker as a Bool. -/
structure Note where
  id : ℕ
  pitch : Pitch
  duration : Duration
  startBeat : ℚ
  voice : ℤ
  staff : ℤ
  tiedTo : Bool
  isLocked : Bool
  lockReason : Option String
  embellishment : Option String
  voicePart : Option VoicePart
  hadEmbellishment : Option String
deriving DecidableEq, Repr

structure Rest where
  id : ℕ
  duration : Duration
  startBeat : ℚ
  voice : ℤ
  staff : ℤ
deriving DecidableEq, Repr

structure Measure where
  number : ℤ
  notes : List Note
  rests : List Rest
deriving DecidableEq, Repr

structure TimeSignature where
  beats : ℤ
  beatType : ℤ
  tsType : String
deriving DecidableEq, Repr

structure KeySignature where
  fifths : ℤ
  mode : String
deriving DecidableEq, Repr

/-- Score metadata (parser's `parseMetadata` output shape).
`textAnnots` embeds the source's text-annotation list. -/
structure ScoreMetadata where
  title : String
  composer : String
  tempo : ℤ
  timeSignature : TimeSignature
  keySignature : KeySignature
  clefs : List String
  textAnnots : List String
deriving DecidableEq, Repr

/-- `TIME_SIGNATURE_DEFINITIONS[key].strongBeats` lookup (knowledge/index.js). -/
def timeSigStrongBeats (beats beatType : ℤ) : Option (List ℤ) :=
  if beats = 2 ∧ beatType = 4 then some [1]
  else if beats = 2 ∧ beatType = 2 then some [1]
  else if beats = 3 ∧ beatType = 4 then some [1]
  else if beats = 3 ∧ beatType = 8 then some [1]
  else if beats = 4 ∧ beatType = 4 then some [1, 3]
  else if beats = 4 ∧ beatType = 2 then some [1, 3]
  else if beats = 5 ∧ beatType = 4 then some [1, 3]
  else if beats = 6 ∧ beatType = 4 then some [1, 4]
  else if beats = 6 ∧ beatType = 8 then some [1, 4]
  else if beats = 7 ∧ beatType = 8 then some [1, 4]
  else if beats = 9 ∧ beatType = 8 then some [1, 4, 7]
  else if beats = 12 ∧ beatType = 8 then some [1, 4, 7, 10]
  else none

/-- `getStrongBeats` from knowledge/index.js: table lookup, default `[1]`. -/
def getStrongBeats (ts : TimeSignature) : List ℤ :=
  (timeSigStrongBeats ts.beats ts.beatType).getD [1]

/-- `isStrongBeat`: membership of `Math.floor(beat)` in the strong-beat set. -/
def isStrongBeat (beat : ℚ) (ts : TimeSignature) : Bool :=
  (getStrongBeats ts).contains ⌊beat⌋

/-- `getDurationTypeFromTicks` (rules/singleStaff.js and grandStaff.js). -/
def getDurationTypeFromTicks (ticks : ℤ) : DurType :=
  if ticks ≥ 4096 then .whole
  else if ticks ≥ 2048 then .half
  else if ticks ≥ 1024 then .quarter
  else if ticks ≥ 512 then .eighth
  else if ticks ≥ 256 then .sixteenth
  else .d32nd

/-- Stable ascending sort by `startBeat`, modelling
`[...notes].sort((a, b) => a.startBeat - b.startBeat)`. -/
def sortByStartBeat (notes : List Note) : List Note :=
  notes.insertionSort (fun a b => a.startBeat ≤ b.startBeat)

/-- Test used throughout the rules: a main (non-embellishment) note. -/
def isMain (n : Note) : Bool := n.embellishment = none

/-! ## Single-staff rule engine (src/rules/singleStaff.js) -/

/-- `applyLevel1`: keep the first surviving main note, stretched to the
whole measure. -/
def applyLevel1 (m : Measure) (ts : TimeSignature) : Measure :=
  let notes := m.notes.filter isMain
  if notes.isEmpty then { m with notes := [] }
  else
    match sortByStartBeat notes with
    | [] => { m with notes := [] }
    | firstNote :: _ =>
      let md := ts.beats * 1024
      { m with
        notes := [{ firstNote with
                    startBeat := 1
                    duration := { type := getDurationTypeFromTicks md, dots := 0,
                                  ticks := md, tuplet := none } }]
        rests := [] }

/-- End beat of a note: `startBeat + ticks / 1024`. -/
def noteEndBeat (n : Note) : ℚ := n.startBeat + (n.duration.ticks : ℚ) / 1024

/-- `findNoteAtBeatExcluding` (singleStaff.js): exact match within 0.1,
else a covering note, else the nearest unused note within distance 2
(first of strictly minimal distance, as the JS scan keeps the earlier
note on ties). -/
def findNoteAtBeatExcluding (notes : List Note) (beat : ℚ) (used : List ℕ) : Option Note :=
  match notes.find? (fun n => !used.contains n.id && |n.startBeat - beat| < 1/10) with
  | some n => some n
  | none =>
    match notes.find? (fun n =>
        !used.contains n.id && n.startBeat ≤ beat && beat < noteEndBeat n) with
    | some n => some n
    | none =>
      (notes.foldl (fun acc n =>
        if used.contains n.id then acc
        else
          let d := |n.startBeat - beat|
          match acc with
          | none => if d < 2 then some (n, d) else none
          | some (_, dm) => if d < dm ∧ d < 2 then some (n, d) else acc) none).map Prod.fst

/-- One iteration structure of the `strongBeats.forEach` loop in
`applyLevel2`: walks the strong beats with the running index and used-id
set, repositioning each found note to its strong beat (except an
anacrusis first note) and stretching it to the next strong beat. -/
def level2Go (ts : TimeSignature) (sorted : List Note) (firstNote : Note) (isAnac : Bool) :
    List ℤ → ℕ → List ℕ → List Note
  | [], _, _ => []
  | sb :: rest, idx, used =>
    match findNoteAtBeatExcluding sorted (sb : ℚ) used with
    | none => level2Go ts sorted firstNote isAnac rest (idx + 1) used
    | some n =>
      let nextStrong : ℤ := match rest with | [] => ts.beats + 1 | sb2 :: _ => sb2
      let durTicks : ℤ := (nextStrong - sb) * 1024
      let keep : Bool := idx = 0 && isAnac && n = firstNote
      { n with
        startBeat := if keep then n.startBeat else (sb : ℚ)
        duration := { type := getDurationTypeFromTicks durTicks, dots := 0,
                      ticks := durTicks, tuplet := none } } ::
        level2Go ts sorted firstNote isAnac rest (idx + 1) (n.id :: used)

/-- `applyLevel2`: keep one note per strong beat, repositioned and
stretched; an anacrusis first note keeps its original position. -/
def applyLevel2 (m : Measure) (ts : TimeSignature) : Measure :=
  let notes := m.notes.filter isMain
  if notes.isEmpty then { m with notes := [] }
  else
    match sortByStartBeat notes with
    | [] => { m with notes := [] }
    | firstNote :: sortedRest =>
      let isAnac : Bool := firstNote.startBeat < 1
      { m with
        notes := level2Go ts (firstNote :: sortedRest) firstNote isAnac (getStrongBeats ts) 0 []
        rests := [] }

/-- `findNoteAtBeat` (singleStaff.js): like the excluding variant but
with no used set and an unbounded nearest-note fallback. -/
def findNoteAtBeat (notes : List Note) (beat : ℚ) : Option Note :=
  match notes.find? (fun n => |n.startBeat - beat| < 1/10) with
  | some n => some n
  | none =>
    match notes.find? (fun n => n.startBeat ≤ beat && beat < noteEndBeat n) with
    | some n => some n
    | none =>
      (notes.foldl (fun acc n =>
        let d := |n.startBeat - beat|
        match acc with
        | none => some (n, d)
        | some (_, dm) => if d < dm then some (n, d) else acc) none).map Prod.fst

/-- Integer beats `1..ts.beats` of the `for` loop in `applyLevel3`. -/
def beatHeads (ts : TimeSignature) : List ℤ :=
  (List.range ts.beats.toNat).map (fun i => (i : ℤ) + 1)

/-- `applyLevel3`: one note per integer beat, forced to a quarter note. -/
def applyLevel3 (m : Measure) (ts : TimeSignature) : Measure :=
  let notes := m.notes.filter isMain
  if notes.isEmpty then { m with notes := [] }
  else
    { m with
      notes := (beatHeads ts).filterMap (fun beat =>
        (findNoteAtBeat notes (beat : ℚ)).map (fun n =>
          { n with startBeat := (beat : ℚ)
                   duration := { type := .quarter, dots := 0, ticks := 1024, tuplet := none } }))
      rests := [] }

/-- Slot keys of `applyLevel4`'s `processedPositions` set.  The JS keys
are strings `'triplet_' + pos.toFixed(3)` and `'eighth_' + pos.toFixed(2)`;
for the nonnegative grid positions that occur they are modelled by the
rounded integers `jsRound (pos * 1000)` and `jsRound (pos * 100)`. -/
inductive SlotKey where
  | triplet (k : ℤ)
  | eighth (k : ℤ)
deriving DecidableEq, Repr

/-- Tuplet slot start for a short tuplet note in `applyLevel4`:
`Math.floor(startBeat / (1 / actual)) * (1 / actual)`. -/
def tupletSlotPos (startBeat : ℚ) (actual : ℤ) : ℚ :=
  let unit : ℚ := 1 / (actual : ℚ)
  (⌊startBeat / unit⌋ : ℚ) * unit

/-- Eighth slot start for a short plain note in `applyLevel4`:
`Math.floor(startBeat * 2) / 2`. -/
def eighthSlotPos (startBeat : ℚ) : ℚ := (⌊startBeat * 2⌋ : ℚ) / 2

/-- Slot key of a short tuplet note. -/
def tupletKey (n : Note) (t : Tuplet) : SlotKey :=
  SlotKey.triplet (jsRound (tupletSlotPos n.startBeat t.actual * 1000))

/-- Slot key of a short plain note. -/
def eighthKey (n : Note) : SlotKey :=
  SlotKey.eighth (jsRound (eighthSlotPos n.startBeat * 100))

/-- The snapped form of a short tuplet note in `applyLevel4`. -/
def tupletSnap (n : Note) (t : Tuplet) : Note :=
  { n with startBeat := tupletSlotPos n.startBeat t.actual
           duration := { type := .eighth, dots := 0,
                         ticks := jsRound ((512 * t.normal : ℚ) / (t.actual : ℚ)),
                         tuplet := some t } }

/-- The snapped form of a short plain note in `applyLevel4`. -/
def eighthSnap (n : Note) : Note :=
  { n with startBeat := eighthSlotPos n.startBeat
           duration := { type := .eighth, dots := 0, ticks := 512, tuplet := none } }

/-- The `mainNotes.forEach` loop of `applyLevel4`, threading the
`processedPositions` key set.  Locked notes and notes of at least
eighth duration are pushed verbatim; shorter notes are snapped to
their slot, at most once per slot key. -/
def level4Go : List Note → List SlotKey → List Note × List SlotKey
  | [], keys => ([], keys)
  | n :: rest, keys =>
    if n.isLocked then
      ((level4Go rest keys).1.cons n, (level4Go rest keys).2)
    else if n.duration.ticks ≥ 512 then
      ((level4Go rest keys).1.cons n, (level4Go rest keys).2)
    else
      match n.duration.tuplet with
      | some t =>
        if keys.contains (tupletKey n t) then level4Go rest keys
        else
          ((level4Go rest (keys ++ [tupletKey n t])).1.cons (tupletSnap n t),
           (level4Go rest (keys ++ [tupletKey n t])).2)
      | none =>
        if keys.contains (eighthKey n) then level4Go rest keys
        else
          ((level4Go rest (keys ++ [eighthKey n])).1.cons (eighthSnap n),
           (level4Go rest (keys ++ [eighthKey n])).2)

/-- Rest lengthening of `applyLevel4`: rests shorter than an eighth get
eighth duration. -/
def lengthenRest (r : Rest) : Rest :=
  if r.duration.ticks < 512 then
    { r with duration := { type := .eighth, dots := 0, ticks := 512, tuplet := none } }
  else r

/-- `applyLevel4` (singleStaff.js).  The JS block that scans for the
nearest locked note to each embellishment computes a value it never
uses (dead code), so it is omitted. -/
def applyLevel4 (m : Measure) (ts : TimeSignature) : Measure :=
  let sortedNotes := sortByStartBeat m.notes
  let mainNotes := sortedNotes.filter isMain
  { m with
    notes := (level4Go mainNotes []).1
    rests := m.rests.map lengthenRest }

/-- First index of the strictly-minimal-distance main note, as computed
by the JS `reduce` in `applyLevel5` (earlier note wins ties). -/
def nearestMainIdx (mainNotes : List Note) (b : ℚ) : Option ℕ :=
  (mainNotes.enum.foldl (fun acc (p : ℕ × Note) =>
    let d := |p.2.startBeat - b|
    match acc with
    | none => some (p.1, d)
    | some (_, dm) => if d < dm then some (p.1, d) else acc) none).map Prod.fst

/-- The per-embellishment mutation of `applyLevel5`: mark the nearest
main note with `hadEmbellishment`. -/
def markNearest (acc : List Note) (e : Note) : List Note :=
  match nearestMainIdx acc e.startBeat with
  | none => acc
  | some i =>
    match acc[i]? with
    | none => acc
    | some n => acc.set i { n with hadEmbellishment := e.embellishment }

/-- `applyLevel5`: drop embellishments; each dropped embellishment marks
its nearest surviving main note. -/
def applyLevel5 (m : Measure) (ts : TimeSignature) : Measure :=
  let mainNotes := m.notes.filter isMain
  let embs := m.notes.filter (fun n => !isMain n)
  { m with notes := embs.foldl markNearest mainNotes }

/-- `applySingleStaffSimplification`: the level switch (JS `switch` on
`level`, default = identity). -/
def applySingleStaffSimplification (m : Measure) (level : ℤ) (ts : TimeSignature) : Measure :=
  if level = 1 then applyLevel1 m ts
  else if level = 2 then applyLevel2 m ts
  else if level = 3 then applyLevel3 m ts
  else if level = 4 then applyLevel4 m ts
  else if level = 5 then applyLevel5 m ts
  else m

/-! ## Grand-staff rule engine (src/rules/grandStaff.js) -/

/-- Insert a note into an insertion-ordered association list of beat
groups (the JS `Map` in `groupNotesByBeat`). -/
def groupInsert (groups : List (ℚ × List Note)) (k : ℚ) (n : Note) : List (ℚ × List Note) :=
  if groups.any (fun g => g.1 = k) then
    groups.map (fun g => if g.1 = k then (g.1, g.2 ++ [n]) else g)
  else groups ++ [(k, [n])]

/-- Quantized grouping key of `groupNotesByBeat`:
`Math.round(startBeat * 4) / 4`. -/
def quantBeat (n : Note) : ℚ := (jsRound (n.startBeat * 4) : ℚ) / 4

/-- `groupNotesByBeat` (grandStaff.js): group by `quantBeat` in
insertion order. -/
def groupNotesByBeat (notes : List Note) : List (ℚ × List Note) :=
  notes.foldl (fun gs n => groupInsert gs (quantBeat n) n) []

/-- Stable pitch sort of a beat group: descending MIDI when
`bassFirst = false` (soprano extraction), ascending otherwise. -/
def pitchSort (bassFirst : Bool) (notes : List Note) : List Note :=
  if bassFirst then notes.insertionSort (fun a b => pitchToMidi a.pitch ≤ pitchToMidi b.pitch)
  else notes.insertionSort (fun a b => pitchToMidi b.pitch ≤ pitchToMidi a.pitch)

/-- One beat of the `sortedBeats.forEach` loop in
`extractVoicesByPitch`: look the group up, push the pitch extreme on
the primary line and the remainder on the secondary line. -/
def extractStep (beatGroups : List (ℚ × List Note)) (bassFirst : Bool)
    (acc : List Note × List Note) (beat : ℚ) : List Note × List Note :=
  match (beatGroups.find? (fun g => g.1 = beat)).map Prod.snd with
  | none => acc
  | some g =>
    match pitchSort bassFirst g with
    | [] => acc
    | top :: rest => (acc.1 ++ [top], acc.2 ++ rest)

/-- `extractVoicesByPitch` (grandStaff.js): per quantized beat group,
the pitch extreme goes to the primary line, the rest to the secondary. -/
def extractVoicesByPitch (notes : List Note) (bassFirst : Bool) : List Note × List Note :=
  if notes.isEmpty then ([], [])
  else
    let mainNotes := notes.filter isMain
    if mainNotes.isEmpty then ([], [])
    else
      let beatGroups := groupNotesByBeat mainNotes
      let sortedBeats := (beatGroups.map Prod.fst).insertionSort (· ≤ ·)
      sortedBeats.foldl (extractStep beatGroups bassFirst) ([], [])

/-- Result record of `separateVoices`. -/
structure SepVoices where
  soprano : List Note
  alto : List Note
  tenor : List Note
  bass : List Note
deriving DecidableEq, Repr

/-- `separateVoices` (grandStaff.js, synchronous rule path). -/
def separateVoices (upperStaff lowerStaff : List Note) : SepVoices :=
  let upperLines := extractVoicesByPitch upperStaff false
  let lowerLines := extractVoicesByPitch lowerStaff true
  { soprano := upperLines.1.map (fun n => { n with voicePart := some .soprano })
    alto := upperLines.2.map (fun n => { n with voicePart := some .alto })
    bass := lowerLines.1.map (fun n => { n with voicePart := some .bass })
    tenor := lowerLines.2.map (fun n => { n with voicePart := some .tenor }) }

/-- The note search of `applyStrongBeatOnly`: exact within 0.25, else
covering, else nearest within distance 2. -/
def findStrongBeatNote (sorted : List Note) (sb : ℚ) (used : List ℕ) : Option Note :=
  match sorted.find? (fun n => !used.contains n.id && |n.startBeat - sb| < 1/4) with
  | some n => some n
  | none =>
    match sorted.find? (fun n =>
        !used.contains n.id && n.startBeat ≤ sb && sb < noteEndBeat n) with
    | some n => some n
    | none =>
      (sorted.foldl (fun acc n =>
        if used.contains n.id then acc
        else
          let d := |n.startBeat - sb|
          match acc with
          | none => if d < 2 then some (n, d) else none
          | some (_, dm) => if d < dm ∧ d < 2 then some (n, d) else acc) none).map Prod.fst

/-- The `strongBeats.forEach` loop of `applyStrongBeatOnly`. -/
def strongBeatGo (ts : TimeSignature) (sorted : List Note) (firstNote : Note) (isAnac : Bool) :
    List ℤ → ℕ → List ℕ → List Note
  | [], _, _ => []
  | sb :: rest, idx, used =>
    match findStrongBeatNote sorted (sb : ℚ) used with
    | none => strongBeatGo ts sorted firstNote isAnac rest (idx + 1) used
    | some n =>
      let nextStrong : ℤ := match rest with | [] => ts.beats + 1 | sb2 :: _ => sb2
      let durTicks : ℤ := (nextStrong - sb) * 1024
      let keep : Bool := idx = 0 && isAnac && n = firstNote
      { n with
        startBeat := if keep then n.startBeat else (sb : ℚ)
        duration := { type := getDurationTypeFromTicks durTicks, dots := 0,
                      ticks := durTicks, tuplet := none } } ::
        strongBeatGo ts sorted firstNote isAnac rest (idx + 1) (n.id :: used)

/-- `applyStrongBeatOnly` (grandStaff.js): strong-beat reduction of a
secondary voice.  Note that it has no `isLocked` check. -/
def applyStrongBeatOnly (notes : List Note) (ts : TimeSignature) : List Note :=
  if notes.isEmpty then []
  else
    let mainNotes := notes.filter isMain
    if mainNotes.isEmpty then []
    else
      match sortByStartBeat mainNotes with
      | [] => []
      | firstNote :: sortedRest =>
        let isAnac : Bool := firstNote.startBeat < 1
        strongBeatGo ts (firstNote :: sortedRest) firstNote isAnac (getStrongBeats ts) 0 []

/-- Grand-staff configuration `{ sopranoLevel?, bassLevel? }`. -/
structure GrandConfig where
  sopranoLevel : Option ℤ
  bassLevel : Option ℤ
deriving DecidableEq, Repr

/-- JS `x || d` on an optional level value (`0` and `undefined` both
fall back to the default). -/
def levelOr (x : Option ℤ) (d : ℤ) : ℤ :=
  match x with
  | some v => if v = 0 then d else v
  | none => d

/-- Retag helper: the per-voice `map` that fixes staff, voicePart and
voice number on a simplified line. -/
def retag (staff : ℤ) (vp : VoicePart) (voice : ℤ) (notes : List Note) : List Note :=
  notes.map (fun n => { n with staff := staff, voicePart := some vp, voice := voice })

/-- Per-voice single-staff reduction inside the grand-staff levels:
`applySingleStaffSimplification({ ...measure, notes: part }, lvl, ts).notes`
when the part is nonempty, else `[]`. -/
def simplifyPart (m : Measure) (part : List Note) (lvl : ℤ) (ts : TimeSignature) : List Note :=
  if part.length > 0 then (applySingleStaffSimplification { m with notes := part } lvl ts).notes
  else []

/-- `applyGrandStaffLevel1`: soprano + bass only. -/
def applyGrandStaffLevel1 (m : Measure) (ts : TimeSignature) (config : GrandConfig) : Measure :=
  let sopranoLevel := levelOr config.sopranoLevel 4
  let bassLevel := levelOr config.bassLevel 1
  let upperStaff := m.notes.filter (fun n => n.staff = 1)
  let lowerStaff := m.notes.filter (fun n => n.staff = 2)
  let v := separateVoices upperStaff lowerStaff
  { m with
    notes := retag 1 .soprano 1 (simplifyPart m v.soprano sopranoLevel ts) ++
             retag 2 .bass 2 (simplifyPart m v.bass bassLevel ts)
    rests := [] }

/-- `applyGrandStaffLevel2`: soprano + alto (strong beats) + bass. -/
def applyGrandStaffLevel2 (m : Measure) (ts : TimeSignature) (config : GrandConfig) : Measure :=
  let sopranoLevel := levelOr config.sopranoLevel 4
  let bassLevel := levelOr config.bassLevel 2
  let upperStaff := m.notes.filter (fun n => n.staff = 1)
  let lowerStaff := m.notes.filter (fun n => n.staff = 2)
  let v := separateVoices upperStaff lowerStaff
  let simplifiedAlto := if v.alto.length > 0 then applyStrongBeatOnly v.alto ts else []
  { m with
    notes := retag 1 .soprano 1 (simplifyPart m v.soprano sopranoLevel ts) ++
             retag 1 .alto 2 simplifiedAlto ++
             retag 2 .bass 2 (simplifyPart m v.bass bassLevel ts)
    rests := [] }

/-- `applyGrandStaffLevel3`: soprano + tenor (strong beats) + bass. -/
def applyGrandStaffLevel3 (m : Measure) (ts : TimeSignature) (config : GrandConfig) : Measure :=
  let sopranoLevel := levelOr config.sopranoLevel 5
  let bassLevel := levelOr config.bassLevel 2
  let upperStaff := m.notes.filter (fun n => n.staff = 1)
  let lowerStaff := m.notes.filter (fun n => n.staff = 2)
  let v := separateVoices upperStaff lowerStaff
  let simplifiedTenor := if v.tenor.length > 0 then applyStrongBeatOnly v.tenor ts else []
  { m with
    notes := retag 1 .soprano 1 (simplifyPart m v.soprano sopranoLevel ts) ++
             retag 2 .tenor 1 simplifiedTenor ++
             retag 2 .bass 2 (simplifyPart m v.bass bassLevel ts)
    rests := [] }

/-- `applyGrandStaffLevel4`: all four voices; alto and tenor are reduced
by `applyStrongBeatOnly`. -/
def applyGrandStaffLevel4 (m : Measure) (ts : TimeSignature) (config : GrandConfig) : Measure :=
  let sopranoLevel := levelOr config.sopranoLevel 4
  let bassLevel := levelOr config.bassLevel 2
  let upperStaff := m.notes.filter (fun n => n.staff = 1)
  let lowerStaff := m.notes.filter (fun n => n.staff = 2)
  let v := separateVoices upperStaff lowerStaff
  let simplifiedAlto := if v.alto.length > 0 then applyStrongBeatOnly v.alto ts else []
  let simplifiedTenor := if v.tenor.length > 0 then applyStrongBeatOnly v.tenor ts else []
  { m with
    notes := retag 1 .soprano 1 (simplifyPart m v.soprano sopranoLevel ts) ++
             retag 1 .alto 2 simplifiedAlto ++
             retag 2 .tenor 1 simplifiedTenor ++
             retag 2 .bass 2 (simplifyPart m v.bass bassLevel ts)
    rests := [] }

/-- `applyGrandStaffLevel5`: all four voices near source fidelity
(alto and tenor at single-staff Level 5). -/
def applyGrandStaffLevel5 (m : Measure) (ts : TimeSignature) (config : GrandConfig) : Measure :=
  let sopranoLevel := levelOr config.sopranoLevel 5
  let bassLevel := levelOr config.bassLevel 5
  let upperStaff := m.notes.filter (fun n => n.staff = 1)
  let lowerStaff := m.notes.filter (fun n => n.staff = 2)
  let v := separateVoices upperStaff lowerStaff
  { m with
    notes := retag 1 .soprano 1 (simplifyPart m v.soprano sopranoLevel ts) ++
             retag 1 .alto 2 (simplifyPart m v.alto 5 ts) ++
             retag 2 .tenor 1 (simplifyPart m v.tenor 5 ts) ++
             retag 2 .bass 2 (simplifyPart m v.bass bassLevel ts)
    rests := [] }

/-- `applyGrandStaffSimplification`: the level switch (default = identity). -/
def applyGrandStaffSimplification (m : Measure) (level : ℤ) (ts : TimeSignature)
    (config : GrandConfig) : Measure :=
  if level = 1 then applyGrandStaffLevel1 m ts config
  else if level = 2 then applyGrandStaffLevel2 m ts config
  else if level = 3 then applyGrandStaffLevel3 m ts config
  else if level = 4 then applyGrandStaffLevel4 m ts config
  else if level = 5 then applyGrandStaffLevel5 m ts config
  else m

/-! ## Analyzer (src/modules/analyzer.js) -/

/-- `isMelodicTurningPoint`: strict local pitch extremum among three
consecutive same-staff notes, none an embellishment. -/
def isMelodicTurningPoint (notes : List Note) (index : ℕ) : Bool :=
  if index = 0 ∨ index + 1 ≥ notes.length then false
  else
    match notes[index - 1]?, notes[index]?, notes[index + 1]? with
    | some prev, some curr, some next =>
      if prev.embellishment ≠ none ∨ curr.embellishment ≠ none ∨ next.embellishment ≠ none then
        false
      else
        let prevMidi := pitchToMidi prev.pitch
        let currMidi := pitchToMidi curr.pitch
        let nextMidi := pitchToMidi next.pitch
        (currMidi > prevMidi ∧ currMidi > nextMidi) ∨ (currMidi < prevMidi ∧ currMidi < nextMidi)
    | _, _, _ => false

/-- One note of `identifyLockedNotes`'s inner `forEach`: apply the lock
rules in priority order.  `staff1`/`staff2` are the per-staff note lists
of the measure; `noteIdx`/`total` come from the enclosing iteration.
None of the rules reads another note's `isLocked`, so the in-place JS
mutation is equivalent to this per-note map. -/
def lockNote (ts : TimeSignature) (staff1 staff2 : List Note) (total : ℕ)
    (noteIdx : ℕ) (note : Note) : Note :=
  if note.embellishment ≠ none then note
  else
    let strongBeats := getStrongBeats ts
    let startBeat := note.startBeat
    let durationBeats : ℚ := (note.duration.ticks : ℚ) / 1024
    let endBeat := startBeat + durationBeats
    if ¬ (isStrongBeat startBeat ts) ∧
        strongBeats.any (fun sb => startBeat < (sb : ℚ) ∧ (sb : ℚ) ≤ endBeat) then
      { note with isLocked := true, lockReason := some "syncopation" }
    else if note.duration.dots > 0 ∧ note.duration.ticks ≥ 512 then
      { note with isLocked := true, lockReason := some "dotted_rhythm" }
    else if note.tiedTo then
      { note with isLocked := true, lockReason := some "cross_beat_tie" }
    else if (1/2 ≤ jsMod startBeat 1 ∧ jsMod startBeat 1 < 1) ∧ durationBeats ≥ 1/2 then
      { note with isLocked := true, lockReason := some "off_beat_start" }
    else if (match note.duration.tuplet with
             | some t =>
               let tupletRatio : ℚ := (t.actual : ℚ) / (t.normal : ℚ)
               decide (|jsMod startBeat (1 / tupletRatio) - 0| < 1/100)
             | none => false : Bool) then
      { note with isLocked := true, lockReason := some "triplet_head" }
    else
      let sameStaffNotes := if note.staff = 1 then staff1 else staff2
      match sameStaffNotes.findIdx? (fun n => n.id = note.id) with
      | some staffNoteIdx =>
        if isMelodicTurningPoint sameStaffNotes staffNoteIdx then
          { note with isLocked := true, lockReason := some "melodic_turning_point" }
        else if noteIdx + 1 = total ∧ note.duration.ticks ≥ 1024 then
          { note with isLocked := true, lockReason := some "phrase_ending" }
        else note
      | none =>
        if noteIdx + 1 = total ∧ note.duration.ticks ≥ 1024 then
          { note with isLocked := true, lockReason := some "phrase_ending" }
        else note

/-- `identifyLockedNotes` restricted to one measure. -/
def lockMeasure (ts : TimeSignature) (m : Measure) : Measure :=
  let staff1 := m.notes.filter (fun n => n.staff = 1)
  let staff2 := m.notes.filter (fun n => n.staff = 2)
  { m with
    notes := m.notes.enum.map (fun p => lockNote ts staff1 staff2 m.notes.length p.1 p.2) }

/-- `identifyLockedNotes` over all measures. -/
def identifyLockedMeasures (measures : List Measure) (ts : TimeSignature) : List Measure :=
  measures.map (lockMeasure ts)

/-- `isAnacrusis` (analyzer.js): per-(staff,voice) filled duration, the
maximum compared against 90 percent of the nominal measure length. -/
def isAnacrusis (m : Measure) (ts : TimeSignature) : Bool :=
  if m.notes.isEmpty then false
  else
    let voiceGroups := m.notes.foldl (fun (gs : List ((ℤ × ℤ) × List Note)) n =>
      let key := (n.staff, n.voice)
      if gs.any (fun g => g.1 = key) then
        gs.map (fun g => if g.1 = key then (g.1, g.2 ++ [n]) else g)
      else gs ++ [(key, [n])]) []
    let maxActualBeats := voiceGroups.foldl (fun mx g =>
      let maxEndBeat := g.2.foldl (fun me n => max me (noteEndBeat n)) 0
      max mx (maxEndBeat - 1)) 0
    decide (maxActualBeats < (ts.beats : ℚ) * (9/10))

/-- `classifyVoicePart` (ai/index.js): pitch-threshold classification. -/
def classifyVoicePart (note : Note) : VoicePart :=
  let midi := pitchToMidi note.pitch
  if note.staff = 1 then
    if midi ≥ 60 then .soprano else .alto
  else
    if midi ≥ 48 then .tenor else .bass

/-- Insertion-ordered grouping of `groupByBeat` (analyzer.js): key is
`Math.floor(startBeat)`. -/
def groupByBeatFloor (notes : List Note) : List (ℤ × List Note) :=
  notes.foldl (fun gs n =>
    let key := ⌊n.startBeat⌋
    if gs.any (fun g => g.1 = key) then
      gs.map (fun g => if g.1 = key then (g.1, g.2 ++ [n]) else g)
    else gs ++ [(key, [n])]) []

/-- `getHighestVoice` (analyzer.js): first maximal-pitch note of each
floor-beat group (the JS `reduce` keeps the earlier note on ties). -/
def getHighestVoice (notes : List Note) : List Note :=
  (groupByBeatFloor notes).flatMap (fun g =>
    match g.2 with
    | [] => []
    | n :: rest => [rest.foldl (fun mx x =>
        if pitchToMidi x.pitch > pitchToMidi mx.pitch then x else mx) n])

/-- `getLowestVoice` (analyzer.js). -/
def getLowestVoice (notes : List Note) : List Note :=
  (groupByBeatFloor notes).flatMap (fun g =>
    match g.2 with
    | [] => []
    | n :: rest => [rest.foldl (fun mx x =>
        if pitchToMidi x.pitch < pitchToMidi mx.pitch then x else mx) n])

/-- Voice partition carried by `AnalyzedScore`. -/
structure Voices where
  soprano : List Note
  alto : List Note
  tenor : List Note
  bass : List Note
deriving DecidableEq, Repr

def emptyVoices : Voices := ⟨[], [], [], []⟩

/-- Voice-part assignment of `identifyVoices` (rule-based branch, the
deterministic path taken when the AI oracle is unavailable).  The JS
mutates the shared note objects; here the assignment is replayed by id
lookup (parser ids are unique). -/
def identifyVoicesAssign (notes : List Note) : Note → Note :=
  let upperStaff := notes.filter (fun n => n.staff = 1)
  let lowerStaff := notes.filter (fun n => n.staff = 2)
  let sopranoIds := (getHighestVoice upperStaff).map (fun n => n.id)
  let bassIds := (getLowestVoice lowerStaff).map (fun n => n.id)
  let altoIds := (upperStaff.filter (fun n => !sopranoIds.contains n.id)).map (fun n => n.id)
  let tenorIds := (lowerStaff.filter (fun n => !bassIds.contains n.id)).map (fun n => n.id)
  fun n =>
    if sopranoIds.contains n.id then { n with voicePart := some .soprano }
    else if altoIds.contains n.id then { n with voicePart := some .alto }
    else if tenorIds.contains n.id then { n with voicePart := some .tenor }
    else if bassIds.contains n.id then { n with voicePart := some .bass }
    else n

/-- `identifyVoices` (rule-based branch): voice lists after assignment. -/
def identifyVoices (notes : List Note) : Voices :=
  let assign := identifyVoicesAssign notes
  let upperStaff := notes.filter (fun n => n.staff = 1)
  let lowerStaff := notes.filter (fun n => n.staff = 2)
  let sopranoIds := (getHighestVoice upperStaff).map (fun n => n.id)
  let bassIds := (getLowestVoice lowerStaff).map (fun n => n.id)
  { soprano := (getHighestVoice upperStaff).map assign
    alto := (upperStaff.filter (fun n => !sopranoIds.contains n.id)).map assign
    bass := (getLowestVoice lowerStaff).map assign
    tenor := (lowerStaff.filter (fun n => !bassIds.contains n.id)).map assign }

structure ParsedScore where
  metadata : ScoreMetadata
  measures : List Measure
deriving DecidableEq, Repr

structure AnalyzedScore where
  metadata : ScoreMetadata
  measures : List Measure
  voices : Voices
  lockedNotes : List Note
  strongBeats : List ℤ
  scoreType : String
deriving DecidableEq, Repr

structure SimplifiedScore where
  metadata : ScoreMetadata
  measures : List Measure
  simplificationLevel : ℤ
  scoreType : String
deriving DecidableEq, Repr

/-- `analyzeScore` (analyzer.js), deterministic path (`isAIAvailable`
false, so melody/bass identification uses the rule-based branch; the
spec's failure semantics make this path unconditionally reachable). -/
def analyzeScore (score : ParsedScore) (scoreType : String) : AnalyzedScore :=
  let analyzedMeasures := score.measures.map (fun m =>
    { m with notes := m.notes.map (fun n =>
        { n with
          voicePart := if scoreType = "grand-staff" then some (classifyVoicePart n) else none
          isLocked := false
          lockReason := none }) })
  let lockedMeasures := identifyLockedMeasures analyzedMeasures score.metadata.timeSignature
  let allNotes := lockedMeasures.flatMap (fun m => m.notes)
  let voices := if scoreType = "grand-staff" then identifyVoices allNotes else emptyVoices
  let finalMeasures :=
    if scoreType = "grand-staff" then
      lockedMeasures.map (fun m =>
        { m with notes := m.notes.map (identifyVoicesAssign allNotes) })
    else lockedMeasures
  { metadata := score.metadata
    measures := finalMeasures
    voices := voices
    lockedNotes := (finalMeasures.flatMap (fun m => m.notes)).filter (fun n => n.isLocked)
    strongBeats := getStrongBeats score.metadata.timeSignature
    scoreType := scoreType }

/-! ## Simplification engine (src/modules/simplifier.js) -/

/-- Configuration `{ mainLevel, sopranoLevel?, bassLevel? }`. -/
structure SimpConfig where
  mainLevel : ℤ
  sopranoLevel : Option ℤ
  bassLevel : Option ℤ
deriving DecidableEq, Repr

/-- `getDefaultSopranoLevel` lookup, default 4. -/
def getDefaultSopranoLevel (mainLevel : ℤ) : ℤ :=
  if mainLevel = 1 then 4
  else if mainLevel = 2 then 4
  else if mainLevel = 3 then 5
  else if mainLevel = 4 then 4
  else if mainLevel = 5 then 5
  else 4

/-- `getDefaultBassLevel` lookup, default 2. -/
def getDefaultBassLevel (mainLevel : ℤ) : ℤ :=
  if mainLevel = 1 then 1
  else if mainLevel = 2 then 2
  else if mainLevel = 3 then 2
  else if mainLevel = 4 then 2
  else if mainLevel = 5 then 5
  else 2

/-- `preserveAnacrusis`: drop embellishments, keep everything else. -/
def preserveAnacrusis (m : Measure) : Measure :=
  { m with notes := m.notes.filter isMain }

/-- `simplifyScore` (simplifier.js, synchronous rule-engine path). -/
def simplifyScore (s : AnalyzedScore) (config : SimpConfig) : SimplifiedScore :=
  let hasAnacrusis : Bool :=
    decide (s.measures.length > 0) &&
      (match s.measures with
       | [] => false
       | m :: _ => isAnacrusis m s.metadata.timeSignature)
  let simplifiedMeasures := s.measures.enum.map (fun p =>
    if hasAnacrusis ∧ p.1 = 0 then preserveAnacrusis p.2
    else if s.scoreType = "single-staff" then
      applySingleStaffSimplification p.2 config.mainLevel s.metadata.timeSignature
    else
      applyGrandStaffSimplification p.2 config.mainLevel s.metadata.timeSignature
        { sopranoLevel := some (levelOr config.sopranoLevel
            (getDefaultSopranoLevel config.mainLevel))
          bassLevel := some (levelOr config.bassLevel
            (getDefaultBassLevel config.mainLevel)) })
  { metadata := s.metadata
    measures := simplifiedMeasures
    simplificationLevel := config.mainLevel
    scoreType := s.scoreType }

/-! ## Exporter (src/modules/exporter.js)

`generateMusicXML` fixes `divisions = 256`, and every serialization
helper receives that constant, so the embedding fixes it too.  The
emitted XML is abstracted to its event stream: notes and rests with
their `<duration>` values, plus `<backup>` markers.  Display-only
output (type names, stems, dots, pitches) is not needed by any claim
and is omitted from the events. -/

def exportDivisions : ℤ := 256

/-- Serialized events of one measure. -/
inductive XEvent where
  | note (voice staff : ℤ) (dur : ℤ) (isChord : Bool)
  | rest (voice staff : ℤ) (dur : ℤ)
  | fullRest (voice staff : ℤ) (dur : ℤ)
  | backup (dur : ℤ)
deriving DecidableEq, Repr

/-- Contribution of an event to a voice's serialized duration total:
non-chord notes and rests count, chord members and markers do not. -/
def XEvent.durContribution : XEvent → ℤ
  | .note _ _ d isChord => if isChord then 0 else d
  | .rest _ _ d => d
  | .fullRest _ _ d => d
  | .backup _ => 0

/-- Sum of serialized non-chord note and rest durations. -/
def voiceDurationSum (es : List XEvent) : ℤ := (es.map XEvent.durContribution).sum

/-- The rest sizes of `generateRestsForDuration` with `divisions = 256`:
whole, half, quarter, eighth, 16th, 32nd. -/
def restValues : List ℤ := [1024, 512, 256, 128, 64, 32]

/-- Greedy rest decomposition of `generateRestsForDuration`.  The JS
loop runs while `remaining > 0.5` and picks the first (largest) value
with `duration <= remaining + 0.5`; with integer gaps this is the first
value `≤ remaining`, and the loop breaks when none fits. -/
def restsFor (remaining : ℤ) : List ℤ :=
  if h : remaining ≤ 0 then []
  else
    match hv : restValues.find? (fun v => v ≤ remaining) with
    | none => []
    | some v => v :: restsFor (remaining - v)
termination_by remaining.toNat
decreasing_by
  have hmem : v ∈ restValues := List.mem_of_find?_eq_some hv
  have hle : v ≤ remaining := by simpa using List.find?_some hv
  have hpos : 0 < v := by
    simp only [restValues, List.mem_cons, List.not_mem_nil, or_false] at hmem
    rcases hmem with h | h | h | h | h | h <;> omega
  omega

/-- A beat-position group of `groupNotesByPosition` (chord grouping). -/
structure NGroup where
  position : ℤ
  startBeat : ℚ
  notes : List Note
deriving DecidableEq, Repr

/-- Rounded in-measure position of a note:
`Math.round((startBeat - 1) * divisions)`. -/
def notePosition (n : Note) : ℤ := jsRound ((n.startBeat - 1) * 256)

/-- The running-group recursion of `groupNotesByPosition`: a new group
starts when the position differs from the current group's by more than
`divisions / 8 = 32`. -/
def groupGo (cur : NGroup) : List Note → List NGroup
  | [] => [cur]
  | n :: rest =>
    let pos := notePosition n
    if |pos - cur.position| > 32 then
      cur :: groupGo ⟨pos, n.startBeat, [n]⟩ rest
    else groupGo { cur with notes := cur.notes ++ [n] } rest

/-- `groupNotesByPosition` (exporter.js). -/
def groupNotesByPosition : List Note → List NGroup
  | [] => []
  | n :: rest => groupGo ⟨notePosition n, n.startBeat, [n]⟩ rest

/-- Serialized `<duration>` of a note:
`Math.round((duration?.ticks || 1024) / 1024 * divisions)`; note the JS
`||` sends zero ticks to 1024. -/
def noteXmlDur (n : Note) : ℤ :=
  let t : ℤ := if n.duration.ticks = 0 then 1024 else n.duration.ticks
  jsRound ((t : ℚ) / 1024 * 256)

/-- Cursor advance of a group: the head note's serialized duration
(`group.notes[0]`); chord members do not advance the cursor. -/
def groupDur (g : NGroup) : ℤ :=
  match g.notes with
  | [] => 0
  | n :: _ => noteXmlDur n

/-- `generateFullMeasureRest` (exporter.js). -/
def generateFullMeasureRest (voice staff md : ℤ) : List XEvent :=
  [XEvent.fullRest voice staff md]

/-- The `noteGroups.forEach` loop of `generateVoiceXMLAligned` plus the
final gap fill: gaps before each group and after the last group are
filled by greedy rests; each group emits its notes with the tail marked
as chord members. -/
def serVoiceGo (voice staff md : ℤ) : List NGroup → ℤ → List XEvent
  | [], cur =>
    if cur < md then (restsFor (md - cur)).map (XEvent.rest voice staff) else []
  | g :: gs, cur =>
    let pos := g.position
    let gapEvents :=
      if pos > cur then (restsFor (pos - cur)).map (XEvent.rest voice staff) else []
    let noteEvents :=
      match g.notes with
      | [] => []
      | n :: chordRest =>
        XEvent.note voice staff (noteXmlDur n) false ::
          chordRest.map (fun c => XEvent.note voice staff (noteXmlDur c) true)
    gapEvents ++ noteEvents ++ serVoiceGo voice staff md gs (pos + groupDur g)

/-- `generateVoiceXMLAligned` (exporter.js): one voice of one measure,
rendered independently and rest-filled; an empty voice becomes a single
full-measure rest. -/
def generateVoiceXMLAligned (notes : List Note) (voice staff md : ℤ) : List XEvent :=
  if notes.isEmpty then generateFullMeasureRest voice staff md
  else serVoiceGo voice staff md (groupNotesByPosition (sortByStartBeat notes)) 0

/-- `generateSingleStaffMeasureXML` (exporter.js). -/
def generateSingleStaffMeasureXML (notes : List Note) (md : ℤ) : List XEvent :=
  if notes.isEmpty then generateFullMeasureRest 1 1 md
  else generateVoiceXMLAligned notes 1 1 md

/-- Voice-part filters of `generateGrandStaffMeasureXML` (with the
`!n.voicePart` fallback on (staff, voice) numbers). -/
def vpFilter (notes : List Note) (vp : VoicePart) (staff voice : ℤ) : List Note :=
  notes.filter (fun n =>
    n.voicePart = some vp ∨ (n.staff = staff ∧ n.voice = voice ∧ n.voicePart = none))

/-- Upper-staff (soprano/alto) events of `generateGrandStaffMeasureXML`. -/
def grandUpperEvents (notes : List Note) (md : ℤ) : List XEvent :=
  let soprano := vpFilter notes .soprano 1 1
  let alto := vpFilter notes .alto 1 2
  let upperNotes :=
    if soprano.length > 0 ∨ alto.length > 0 then soprano ++ alto
    else notes.filter (fun n => n.staff = 1)
  let hasSoprano := soprano.length > 0 ∨ (upperNotes.length > 0 ∧ alto.length = 0)
  let hasAlto := alto.length > 0
  if hasSoprano ∨ hasAlto then
    (if hasSoprano then
      generateVoiceXMLAligned (if soprano.length > 0 then soprano else upperNotes) 1 1 md
     else []) ++
    (if hasAlto then XEvent.backup md :: generateVoiceXMLAligned alto 2 1 md else [])
  else generateFullMeasureRest 1 1 md

/-- Lower-staff (tenor/bass) events of `generateGrandStaffMeasureXML`. -/
def grandLowerEvents (notes : List Note) (md : ℤ) : List XEvent :=
  let tenor := vpFilter notes .tenor 2 1
  let bass := vpFilter notes .bass 2 2
  let lowerNotes :=
    if tenor.length > 0 ∨ bass.length > 0 then tenor ++ bass
    else notes.filter (fun n => n.staff = 2)
  let hasTenor := tenor.length > 0
  let hasBass := bass.length > 0 ∨ (lowerNotes.length > 0 ∧ tenor.length = 0)
  if hasTenor ∨ hasBass then
    (if hasTenor then
      generateVoiceXMLAligned tenor 3 2 md ++
        (if hasBass then [XEvent.backup md] else [])
     else []) ++
    (if hasBass then
      generateVoiceXMLAligned (if bass.length > 0 then bass else lowerNotes) 4 2 md
     else [])
  else generateFullMeasureRest 3 2 md

/-- `generateGrandStaffMeasureXML` (exporter.js): the four voiceParts
are serialized independently, separated by backup markers; an empty
staff yields one full-measure rest. -/
def generateGrandStaffMeasureXML (notes : List Note) (md : ℤ) : List XEvent :=
  grandUpperEvents notes md ++ [XEvent.backup md] ++ grandLowerEvents notes md

/-! ## Parser measure walk (src/modules/parser.js)

The XML note element is abstracted by the results of the queries
`parseMeasures`/`parseNote`/`parseDuration` perform on it; the
embellishment precedence scan of `parseEmbellishment` is a pure lookup
on ornament children not needed by any claim, so its result is a field. -/

structure XNoteEl where
  isRest : Bool
  isChord : Bool
  isGrace : Bool
  durationVal : Option ℤ
  pitch : Option Pitch
  typeText : Option String
  dots : ℕ
  timeMod : Option (Option ℤ × Option ℤ)
  tieStart : Bool
  voiceVal : Option ℤ
  staffVal : Option ℤ
  emb : Option String
deriving DecidableEq, Repr

/-- A measure child in document order. -/
inductive MChild where
  | note (el : XNoteEl)
  | backup (dur : ℤ)
  | forward (dur : ℤ)
deriving DecidableEq, Repr

/-- The `typeMap` of `parseDuration`, default `'quarter'`. -/
def typeFromText : Option String → DurType
  | some "whole" => .whole
  | some "half" => .half
  | some "quarter" => .quarter
  | some "eighth" => .eighth
  | some "16th" => .sixteenth
  | some "32nd" => .d32nd
  | some "64th" => .d64th
  | _ => .quarter

/-- The dot-expansion loop of `parseDuration`:
`ticks += addition; addition /= 2` for each dot. -/
def dotLoop : ℕ → ℚ → ℚ → ℚ
  | 0, t, _ => t
  | k + 1, t, add => dotLoop k (t + add) (add / 2)

/-- `parseDuration` (parser.js): grace notes get zero duration; a
missing `<duration>` defaults to `divisions` (a quarter); ticks are
dot-expanded then rounded. -/
def parseDuration (el : XNoteEl) (divisions : ℤ) : Duration :=
  let durationValue : ℚ := if el.isGrace then 0 else ((el.durationVal.getD divisions : ℤ) : ℚ)
  let baseTicks : ℚ := durationValue / (divisions : ℚ) * 1024
  let ticks : ℚ := if el.dots > 0 then dotLoop el.dots baseTicks (baseTicks / 2) else baseTicks
  { type := typeFromText el.typeText
    dots := el.dots
    ticks := jsRound ticks
    tuplet := el.timeMod.map (fun tm => { actual := tm.1.getD 3, normal := tm.2.getD 2 }) }

/-- `parseNote` (parser.js): `null` without a pitch, else the note
record; a grace note's embellishment tag is forced to `'grace_note'`. -/
def parseNote (el : XNoteEl) (startBeat : ℚ) (divisions : ℤ) (id : ℕ) : Option Note :=
  match el.pitch with
  | none => none
  | some p =>
    some { id := id
           pitch := p
           duration := parseDuration el divisions
           startBeat := startBeat
           voice := el.voiceVal.getD 1
           staff := el.staffVal.getD 1
           tiedTo := el.tieStart
           isLocked := false
           lockReason := none
           embellishment := if el.isGrace then some "grace_note" else el.emb
           voicePart := none
           hadEmbellishment := none }

/-- Parser state inside one measure: the time cursor, the last
non-chord start beat, the accumulated notes and rests, and the note-id
counter. -/
structure ParseState where
  currentBeat : ℚ
  lastNonChordBeat : ℚ
  notes : List Note
  rests : List Rest
  nextId : ℕ
deriving DecidableEq, Repr

/-- One measure child of the `parseMeasures` walk. -/
def parseStep (divisions : ℤ) (s : ParseState) : MChild → ParseState
  | .backup d =>
    let b := s.currentBeat - (d : ℚ) / (divisions : ℚ)
    { s with currentBeat := b, lastNonChordBeat := b }
  | .forward d =>
    let b := s.currentBeat + (d : ℚ) / (divisions : ℚ)
    { s with currentBeat := b, lastNonChordBeat := b }
  | .note el =>
    let duration : ℤ := el.durationVal.getD 0
    let durationBeats : ℚ := (duration : ℚ) / (divisions : ℚ)
    let noteStartBeat := if el.isChord then s.lastNonChordBeat else s.currentBeat
    if el.isRest then
      let r : Rest :=
        { id := s.nextId
          duration := parseDuration el divisions
          startBeat := noteStartBeat
          voice := el.voiceVal.getD 1
          staff := el.staffVal.getD 1 }
      let s' := { s with rests := s.rests ++ [r], nextId := s.nextId + 1 }
      if ¬ el.isChord then
        { s' with lastNonChordBeat := noteStartBeat, currentBeat := s.currentBeat + durationBeats }
      else s'
    else
      let s' :=
        match parseNote el noteStartBeat divisions s.nextId with
        | some n => { s with notes := s.notes ++ [n], nextId := s.nextId + 1 }
        | none => s
      if ¬ el.isChord ∧ ¬ el.isGrace ∧ durationBeats > 0 then
        { s' with lastNonChordBeat := noteStartBeat, currentBeat := s.currentBeat + durationBeats }
      else s'

/-- Initial per-measure state (`currentBeat = 1`, `lastNonChordBeat = 1`). -/
def initParseState (firstId : ℕ) : ParseState :=
  { currentBeat := 1, lastNonChordBeat := 1, notes := [], rests := [], nextId := firstId }

/-- The child loop of `parseMeasures` for one measure. -/
def parseMeasureChildren (divisions : ℤ) (children : List MChild) (firstId : ℕ) : ParseState :=
  children.foldl (parseStep divisions) (initParseState firstId)

/-! ## Concrete fixtures used by witnesses and counterexamples -/

def ts44 : TimeSignature := { beats := 4, beatType := 4, tsType := "simple" }

def mkNote (id : ℕ) (step : Char) (octave : ℤ) (sb : ℚ) (ticks : ℤ) : Note :=
  { id := id
    pitch := { step := step, octave := octave, alter := 0 }
    duration := { type := .quarter, dots := 0, ticks := ticks, tuplet := none }
    startBeat := sb
    voice := 1
    staff := 1
    tiedTo := false
    isLocked := false
    lockReason := none
    embellishment := none
    voicePart := none
    hadEmbellishment := none }

def sampleMeasure : Measure := { number := 1, notes := [mkNote 1 'C' 4 1 1024], rests := [] }

def sampleMetadata : ScoreMetadata :=
  { title := "T", composer := "C", tempo := 120, timeSignature := ts44,
    keySignature := { fifths := 0, mode := "major" }, clefs := [], textAnnots := [] }

def elQuarterC4Pitch : Pitch := { step := 'C', octave := 4, alter := 0 }

/-- A plain quarter-note element (with `divisions = 1`, duration 1). -/
def elQuarterC4 : XNoteEl :=
  { isRest := false, isChord := false, isGrace := false, durationVal := some 1,
    pitch := some elQuarterC4Pitch, typeText := some "quarter", dots := 0,
    timeMod := none, tieStart := false, voiceVal := some 1, staffVal := some 1,
    emb := none }

/-- A grace-note element (no duration child). -/
def elGraceD4 : XNoteEl :=
  { isRest := false, isChord := false, isGrace := true, durationVal := none,
    pitch := some { step := 'D', octave := 4, alter := 0 }, typeText := none, dots := 0,
    timeMod := none, tieStart := false, voiceVal := some 1, staffVal := some 1,
    emb := none }

/-- Field-wise relation preserved by the `applyLevel5` marking fold:
everything except `hadEmbellishment` is unchanged. -/
def sameCore (a b : Note) : Prop :=
  b.pitch = a.pitch ∧ b.startBeat = a.startBeat ∧ b.duration = a.duration ∧
    b.embellishment = a.embellishment

/-- Voice number carried by an event (backup markers have none). -/
def eventVoice : XEvent → Option ℤ
  | .note v _ _ _ => some v
  | .rest v _ _ => some v
  | .fullRest v _ _ => some v
  | .backup _ => none

/-- A note that belongs only to the alto voice of the upper staff. -/
def nAltoOnly : Note :=
  { mkNote 2 'C' 5 1 1024 with staff := 1, voice := 2, voicePart := some .alto }

/-- A note that belongs only to the tenor voice of the lower staff. -/
def nTenorOnly : Note :=
  { mkNote 3 'C' 3 1 1024 with staff := 2, voice := 1, voicePart := some .tenor }

/-- Primary-line contribution of one sorted beat in
`extractVoicesByPitch`. -/
def primOf (beatGroups : List (ℚ × List Note)) (bassFirst : Bool) (beat : ℚ) : List Note :=
  match (beatGroups.find? (fun g => g.1 = beat)).map Prod.snd with
  | none => []
  | some g =>
    match pitchSort bassFirst g with
    | [] => []
    | top :: _ => [top]

/-- Secondary-line contribution of one sorted beat in
`extractVoicesByPitch`. -/
def secOf (beatGroups : List (ℚ × List Note)) (bassFirst : Bool) (beat : ℚ) : List Note :=
  match (beatGroups.find? (fun g => g.1 = beat)).map Prod.snd with
  | none => []
  | some g =>
    match pitchSort bassFirst g with
    | [] => []
    | _ :: rest => rest

/-- Concrete upper-staff chord for the C6 witness. -/
def C6notes : List Note := [mkNote 1 'E' 5 1 1024, mkNote 2 'C' 5 1 1024]

/-- A locked quarter note and its one-note measure (C2/C4 witnesses). -/
def C2lockedNote : Note := { mkNote 1 'C' 4 1 1024 with isLocked := true }

def C2singleMeasure : Measure := { number := 1, notes := [C2lockedNote], rests := [] }

def C2pitchC5 : Pitch := { step := 'C', octave := 5, alter := 0 }

/-- Quarter note E5 at beat 2 (becomes the soprano of its beat group). -/
def C2noteA : Note := mkNote 10 'E' 5 2 1024

/-- Dotted eighth C5 at beat 2 (locked by the dotted-rhythm rule,
becomes the alto of its beat group). -/
def C2noteB : Note :=
  { mkNote 11 'C' 5 2 768 with
    duration := { type := .eighth, dots := 1, ticks := 768, tuplet := none } }

def C2measure : Measure := { number := 1, notes := [C2noteA, C2noteB], rests := [] }

/-- Modelled from the spec words of C4: the NEAREST eighth-note slot of
a beat position (`Math.round(startBeat * 2) / 2`), to be compared with
the floor snapping the code performs. -/
def nearestEighthSlotSpec (b : ℚ) : ℚ := (jsRound (b * 2) : ℚ) / 2

/-- A non-locked 32nd note at beat 1.375 and its measure (C4). -/
def C4shortNote : Note :=
  { mkNote 1 'C' 4 (11/8) 128 with
    duration := { type := .d32nd, dots := 0, ticks := 128, tuplet := none } }

def C4measure : Measure := { number := 1, notes := [C4shortNote], rests := [] }

/-- Parsed triplet (divisions 3 in the source file: ticks
round(1024/3) = 341, startBeats 1, 4/3, 5/3) plus three quarters. -/
def C1notes : List Note :=
  [ mkNote 1 'C' 4 1 341, mkNote 2 'D' 4 (4/3) 341, mkNote 3 'E' 4 (5/3) 341,
    mkNote 4 'F' 4 2 1024, mkNote 5 'G' 4 3 1024, mkNote 6 'A' 4 4 1024 ]

def C1score : AnalyzedScore :=
  { metadata := sampleMetadata
    measures := [{ number := 1, notes := C1notes, rests := [] }]
    voices := emptyVoices
    lockedNotes := []
    strongBeats := [1, 3]
    scoreType := "single-staff" }

def C1cfg : SimpConfig := { mainLevel := 5, sopranoLevel := none, bassLevel := none }

/-- Shape of every output note of the Level-4 loop: either a verbatim
input note, or the floor-snap of a short non-locked input note. -/
def level4Shape (l : List Note) (x : Note) : Prop :=
  ∃ n ∈ l, x = n ∨
    (n.isLocked = false ∧ n.duration.ticks < 512 ∧
      ((n.duration.tuplet = none ∧ x = eighthSnap n) ∨
       (∃ t, n.duration.tuplet = some t ∧ x = tupletSnap n t)))

/-- Verbatim-keep test of the Level-4 loop. -/
def isVerbatimL4 (n : Note) : Bool := n.isLocked || decide (n.duration.ticks ≥ 512)

/-! ### Duration-closure lemmas (for C1) -/

/-- Alignment of a group chain to the 32nd grid: each group starts at
or after the cursor on a multiple of 32, its head duration is a
multiple of 32, and the final cursor stays within the measure. -/
def alignedChainB (md : ℤ) : List NGroup → ℤ → Bool
  | [], cur => decide (cur ≤ md)
  | g :: gs, cur =>
    decide (cur ≤ g.position) && decide (g.position % 32 = 0) &&
      decide (groupDur g % 32 = 0) && alignedChainB md gs (g.position + groupDur g)

/-! ## Theorems -/

/-! ## Claim theorems -/

/-- C10: for every measure and every level value outside 1-5, both
`applySingleStaffSimplification` and `applyGrandStaffSimplification`
return the input measure unchanged, rather than clamping or raising. -/
theorem C10_default_level_identity (m : Measure) (level : ℤ) (ts : TimeSignature)
    (config : GrandConfig) (h1 : level ≠ 1) (h2 : level ≠ 2) (h3 : level ≠ 3)
    (h4 : level ≠ 4) (h5 : level ≠ 5) :
    applySingleStaffSimplification m level ts = m ∧
    applyGrandStaffSimplification m level ts config = m := by
  constructor <;>
    simp [applySingleStaffSimplification, applyGrandStaffSimplification, h1, h2, h3, h4, h5]

/-- Witness for C10 at levels 0 and 6. -/
theorem C10_default_level_identity_witness :
    applySingleStaffSimplification sampleMeasure 0 ts44 = sampleMeasure ∧
    applyGrandStaffSimplification sampleMeasure 6 ts44 ⟨none, none⟩ = sampleMeasure :=
  ⟨(C10_default_level_identity sampleMeasure 0 ts44 ⟨none, none⟩ (by decide) (by decide)
      (by decide) (by decide) (by decide)).1,
   (C10_default_level_identity sampleMeasure 6 ts44 ⟨none, none⟩ (by decide) (by decide)
      (by decide) (by decide) (by decide)).2⟩

/-- C7: title, composer, timeSignature and keySignature are propagated
unchanged through `analyzeScore` and `simplifyScore`, for every score
type and every configuration (hence every level). -/
theorem C7_metadata_roundtrip (s : ParsedScore) (scoreType : String) (config : SimpConfig) :
    (simplifyScore (analyzeScore s scoreType) config).metadata.title = s.metadata.title ∧
    (simplifyScore (analyzeScore s scoreType) config).metadata.composer = s.metadata.composer ∧
    (simplifyScore (analyzeScore s scoreType) config).metadata.timeSignature
      = s.metadata.timeSignature ∧
    (simplifyScore (analyzeScore s scoreType) config).metadata.keySignature
      = s.metadata.keySignature :=
  ⟨rfl, rfl, rfl, rfl⟩

/-- C3: when the first measure is flagged anacrusis, `simplifyScore`
replaces it by `preserveAnacrusis`, i.e. exactly the non-embellishment
notes of the input first measure with all fields (in particular every
`startBeat`, hence also the note count) unchanged, for every mainLevel. -/
theorem C3_anacrusis_invariance (s : AnalyzedScore) (config : SimpConfig)
    (m0 : Measure) (ms : List Measure) (hm : s.measures = m0 :: ms)
    (ha : isAnacrusis m0 s.metadata.timeSignature = true) :
    (simplifyScore s config).measures.head?
      = some { m0 with notes := m0.notes.filter isMain } := by
  simp [simplifyScore, hm, ha, preserveAnacrusis]

/-- Witness for C3: a pickup measure (a single quarter note in 4/4),
simplified at mainLevel 1. -/
theorem C3_anacrusis_invariance_witness :
    (simplifyScore
        { metadata := sampleMetadata, measures := [sampleMeasure],
          voices := emptyVoices, lockedNotes := [], strongBeats := [1, 3],
          scoreType := "single-staff" }
        { mainLevel := 1, sopranoLevel := none, bassLevel := none }).measures.head?
      = some { sampleMeasure with notes := sampleMeasure.notes.filter isMain } :=
  C3_anacrusis_invariance _ _ sampleMeasure [] rfl (by with_unfolding_all rfl)

theorem sameCore_refl (a : Note) : sameCore a a := ⟨rfl, rfl, rfl, rfl⟩

theorem markNearest_cases (acc : List Note) (e : Note) :
    markNearest acc e = acc ∨
      ∃ i n, acc[i]? = some n ∧
        markNearest acc e = acc.set i { n with hadEmbellishment := e.embellishment } := by
  unfold markNearest
  split
  · exact Or.inl rfl
  next i hidx =>
    split
    · exact Or.inl rfl
    next n hget => exact Or.inr ⟨i, n, hget, rfl⟩

theorem forall₂_sameCore_markNearest {base acc : List Note} (e : Note)
    (h : List.Forall₂ sameCore base acc) :
    List.Forall₂ sameCore base (markNearest acc e) := by
  rcases markNearest_cases acc e with heq | ⟨i, n, hget, heq⟩
  · rw [heq]; exact h
  · rw [heq]
    rw [List.forall₂_iff_get] at h ⊢
    rcases h with ⟨hlen, hall⟩
    refine ⟨by simpa using hlen, fun j h1 h2 => ?_⟩
    have hjlt : j < acc.length := by simpa using h2
    by_cases hj : j = i
    · subst hj
      have hn : acc[j] = n := by
        rcases List.getElem?_eq_some_iff.mp hget with ⟨hlt, hv⟩
        exact hv
      have hc := hall j h1 hjlt
      simp only [List.get_eq_getElem] at hc ⊢
      simp only [List.getElem_set_self]
      rw [hn] at hc
      exact ⟨hc.1, hc.2.1, hc.2.2.1, hc.2.2.2⟩
    · have hc := hall j h1 hjlt
      simp only [List.get_eq_getElem] at hc ⊢
      rw [List.getElem_set_ne (Ne.symm hj)]
      exact hc

theorem forall₂_sameCore_foldl (embs : List Note) :
    ∀ {base acc : List Note}, List.Forall₂ sameCore base acc →
      List.Forall₂ sameCore base (embs.foldl markNearest acc) := by
  induction embs with
  | nil => intro base acc h; simpa using h
  | cons e rest ih =>
    intro base acc h
    exact ih (forall₂_sameCore_markNearest e h)

/-- The notes of `applyLevel5` agree with the surviving main notes on
every field except `hadEmbellishment`. -/
theorem applyLevel5_core (m : Measure) (ts : TimeSignature) :
    List.Forall₂ sameCore (m.notes.filter isMain) ((applyLevel5 m ts).notes) := by
  unfold applyLevel5
  exact forall₂_sameCore_foldl _ (List.forall₂_same.mpr (fun x _ => sameCore_refl x))

theorem applyLevel5_all_main (m : Measure) (ts : TimeSignature) :
    ∀ n ∈ (applyLevel5 m ts).notes, n.embellishment = none := by
  intro n hn
  have h := applyLevel5_core m ts
  rw [List.forall₂_iff_get] at h
  rcases h with ⟨hlen, hall⟩
  rcases List.mem_iff_get.mp hn with ⟨j, hj⟩
  have h1 : (j : ℕ) < (m.notes.filter isMain).length := by
    have := j.isLt; omega
  have hc := hall j h1 j.isLt
  rw [hj] at hc
  have hmem : (m.notes.filter isMain).get ⟨j, h1⟩ ∈ m.notes.filter isMain :=
    List.get_mem _ _ _
  have hmn : isMain ((m.notes.filter isMain).get ⟨j, h1⟩) = true :=
    List.of_mem_filter hmem
  simp only [isMain, decide_eq_true_eq] at hmn
  rw [hc.2.2.2, hmn]

/-- Auxiliary: the dot loop maps zero base ticks to zero. -/
theorem dotLoop_zero : ∀ k : ℕ, dotLoop k 0 0 = 0 := by
  intro k
  induction k with
  | zero => rfl
  | succ k ih => simpa [dotLoop] using ih

/-- Grace notes parse to zero ticks. -/
theorem parseDuration_grace_ticks (el : XNoteEl) (div : ℤ) (hg : el.isGrace = true) :
    (parseDuration el div).ticks = 0 := by
  unfold parseDuration
  simp only [hg, if_true]
  have hbase : (0 : ℚ) / (div : ℚ) * 1024 = 0 := by ring
  rw [hbase]
  by_cases hd : el.dots > 0
  · norm_num [hd, dotLoop_zero, jsRound]
  · norm_num [hd, jsRound]

/-- C5 (amended): the parse cursor advances by `duration / divisions`
for non-chord rests and non-chord non-grace notes, stays unchanged for
chord members (which reuse `lastNonChordBeat` as startBeat) and for
grace notes (which get zero duration but take the current cursor, not
`lastNonChordBeat`, as startBeat), decreases on backup, and increases
on forward without emitting. -/
theorem C5_cursor_semantics (div : ℤ) (s : ParseState) (el : XNoteEl) (d : ℤ) (p : Pitch) :
    (el.isRest = true → el.isChord = false →
      (parseStep div s (.note el)).currentBeat
        = s.currentBeat + ((el.durationVal.getD 0 : ℤ) : ℚ) / (div : ℚ)) ∧
    (el.isRest = false → el.isChord = false → el.isGrace = false →
      0 ≤ el.durationVal.getD 0 → 0 < div →
      (parseStep div s (.note el)).currentBeat
        = s.currentBeat + ((el.durationVal.getD 0 : ℤ) : ℚ) / (div : ℚ)) ∧
    (el.isChord = true →
      (parseStep div s (.note el)).currentBeat = s.currentBeat ∧
      (el.isRest = true → ∃ r, (parseStep div s (.note el)).rests = s.rests ++ [r] ∧
        r.startBeat = s.lastNonChordBeat) ∧
      (el.isRest = false → el.pitch = some p → ∃ n,
        (parseStep div s (.note el)).notes = s.notes ++ [n] ∧
        n.startBeat = s.lastNonChordBeat)) ∧
    (el.isGrace = true → el.isChord = false → el.isRest = false → el.pitch = some p →
      (parseStep div s (.note el)).currentBeat = s.currentBeat ∧
      ∃ n, (parseStep div s (.note el)).notes = s.notes ++ [n] ∧
        n.startBeat = s.currentBeat ∧ n.duration.ticks = 0) ∧
    ((parseStep div s (.backup d)).currentBeat = s.currentBeat - (d : ℚ) / (div : ℚ)) ∧
    ((parseStep div s (.forward d)).currentBeat = s.currentBeat + (d : ℚ) / (div : ℚ) ∧
      (parseStep div s (.forward d)).notes = s.notes ∧
      (parseStep div s (.forward d)).rests = s.rests) := by
  refine ⟨?_, ?_, ?_, ?_, ?_, ?_, ?_, ?_⟩
  · intro hr hc
    simp [parseStep, hr, hc]
  · intro hr hc hg hd hdiv
    by_cases hpos : el.durationVal.getD 0 > 0
    · have : ((el.durationVal.getD 0 : ℤ) : ℚ) / (div : ℚ) > 0 := by
        apply div_pos <;> exact_mod_cast (by omega)
      simp [parseStep, hr, hc, hg, this]
    · have h0 : el.durationVal.getD 0 = 0 := by omega
      have : ¬ (((el.durationVal.getD 0 : ℤ) : ℚ) / (div : ℚ) > 0) := by
        rw [h0]; norm_num
      cases hp : el.pitch <;> simp [parseStep, parseNote, hr, hc, hg, this, hp, h0]
  · intro hc
    refine ⟨?_, ?_, ?_⟩
    · cases hr : el.isRest
      · cases hp : el.pitch <;> simp [parseStep, parseNote, hr, hc, hp]
      · simp [parseStep, hr, hc]
    · intro hr
      refine ⟨{ id := s.nextId, duration := parseDuration el div,
                startBeat := s.lastNonChordBeat, voice := el.voiceVal.getD 1,
                staff := el.staffVal.getD 1 }, ?_, rfl⟩
      simp [parseStep, hr, hc]
    · intro hr hp
      refine ⟨{ id := s.nextId, pitch := p, duration := parseDuration el div,
                startBeat := s.lastNonChordBeat, voice := el.voiceVal.getD 1,
                staff := el.staffVal.getD 1, tiedTo := el.tieStart, isLocked := false,
                lockReason := none,
                embellishment := if el.isGrace then some "grace_note" else el.emb,
                voicePart := none, hadEmbellishment := none }, ?_, rfl⟩
      simp [parseStep, parseNote, hr, hc, hp]
  · intro hg hc hr hp
    refine ⟨by simp [parseStep, parseNote, hr, hc, hg, hp], ?_⟩
    refine ⟨{ id := s.nextId, pitch := p, duration := parseDuration el div,
              startBeat := s.currentBeat, voice := el.voiceVal.getD 1,
              staff := el.staffVal.getD 1, tiedTo := el.tieStart, isLocked := false,
              lockReason := none,
              embellishment := if el.isGrace then some "grace_note" else el.emb,
              voicePart := none, hadEmbellishment := none }, ?_, rfl,
      parseDuration_grace_ticks el div hg⟩
    simp [parseStep, parseNote, hr, hc, hg, hp]
  · simp [parseStep]
  · simp [parseStep]
  · simp [parseStep]
  · simp [parseStep]

/-- Witness for C5: a quarter note then a backup, at concrete inputs. -/
theorem C5_cursor_semantics_witness :
    (parseStep 1 (initParseState 1) (.note elQuarterC4)).currentBeat
      = (initParseState 1).currentBeat
        + ((elQuarterC4.durationVal.getD 0 : ℤ) : ℚ) / ((1 : ℤ) : ℚ) ∧
    (parseStep 2 (initParseState 1) (.backup 3)).currentBeat
      = (initParseState 1).currentBeat - ((3 : ℤ) : ℚ) / ((2 : ℤ) : ℚ) :=
  ⟨(C5_cursor_semantics 1 (initParseState 1) elQuarterC4 3 elQuarterC4Pitch).2.1
      rfl rfl rfl (by decide) (by decide),
   (C5_cursor_semantics 2 (initParseState 1) elQuarterC4 3 elQuarterC4Pitch).2.2.2.2.1⟩

/-- Counterexample for C5: after a quarter note (divisions = 1) the
cursor is 2 and `lastNonChordBeat` is 1; a following grace note is
emitted with `startBeat = 2`, the cursor, not `lastNonChordBeat`. -/
theorem C5_grace_startBeat_counterexample :
    (parseStep 1 (initParseState 1) (.note elQuarterC4)).lastNonChordBeat = 1 ∧
    (parseStep 1 (initParseState 1) (.note elQuarterC4)).currentBeat = 2 ∧
    ((parseStep 1 (parseStep 1 (initParseState 1) (.note elQuarterC4))
        (.note elGraceD4)).notes.getLast?).map (fun n => n.startBeat) = some 2 ∧
    (2 : ℚ) ≠ 1 := by
  with_unfolding_all decide

/-- C9 (amended): a voice serialized with an empty note list yields
exactly one full-measure rest event of the nominal duration, and an
empty staff yields exactly one full-measure rest; but a voice that is
empty while its sibling voice on the same staff is nonempty is skipped
entirely (no event at all), and export is total (a Lean function). -/
theorem C9_empty_voice_rest :
    (∀ voice staff md : ℤ,
      generateVoiceXMLAligned [] voice staff md = [XEvent.fullRest voice staff md]) ∧
    (∀ md : ℤ, generateSingleStaffMeasureXML [] md = [XEvent.fullRest 1 1 md]) ∧
    (∀ (notes : List Note) (md : ℤ),
      (∀ n ∈ notes, n.staff ≠ 1 ∧ n.voicePart ≠ some VoicePart.soprano ∧
        n.voicePart ≠ some VoicePart.alto) →
      generateGrandStaffMeasureXML notes md
        = XEvent.fullRest 1 1 md :: XEvent.backup md :: grandLowerEvents notes md) ∧
    (∀ (notes : List Note) (md : ℤ),
      (∀ n ∈ notes, n.staff ≠ 2 ∧ n.voicePart ≠ some VoicePart.tenor ∧
        n.voicePart ≠ some VoicePart.bass) →
      generateGrandStaffMeasureXML notes md
        = grandUpperEvents notes md ++ [XEvent.backup md, XEvent.fullRest 3 2 md]) := by
  refine ⟨?_, ?_, ?_, ?_⟩
  · intro voice staff md
    simp [generateVoiceXMLAligned, generateFullMeasureRest]
  · intro md
    simp [generateSingleStaffMeasureXML, generateFullMeasureRest]
  · intro notes md h
    have hsop : vpFilter notes VoicePart.soprano 1 1 = [] := by
      rw [vpFilter, List.filter_eq_nil_iff]
      intro n hn
      rcases h n hn with ⟨h1, h2, h3⟩
      simp only [decide_eq_true_eq, not_or]
      exact ⟨h2, fun hc => h1 hc.1⟩
    have halto : vpFilter notes VoicePart.alto 1 2 = [] := by
      rw [vpFilter, List.filter_eq_nil_iff]
      intro n hn
      rcases h n hn with ⟨h1, h2, h3⟩
      simp only [decide_eq_true_eq, not_or]
      exact ⟨h3, fun hc => h1 hc.1⟩
    have hupper : notes.filter (fun n => n.staff = 1) = [] := by
      rw [List.filter_eq_nil_iff]
      intro n hn
      simpa using (h n hn).1
    have hU : grandUpperEvents notes md = [XEvent.fullRest 1 1 md] := by
      simp [grandUpperEvents, hsop, halto, hupper, generateFullMeasureRest]
    simp [generateGrandStaffMeasureXML, hU]
  · intro notes md h
    have hten : vpFilter notes VoicePart.tenor 2 1 = [] := by
      rw [vpFilter, List.filter_eq_nil_iff]
      intro n hn
      rcases h n hn with ⟨h1, h2, h3⟩
      simp only [decide_eq_true_eq, not_or]
      exact ⟨h2, fun hc => h1 hc.1⟩
    have hbass : vpFilter notes VoicePart.bass 2 2 = [] := by
      rw [vpFilter, List.filter_eq_nil_iff]
      intro n hn
      rcases h n hn with ⟨h1, h2, h3⟩
      simp only [decide_eq_true_eq, not_or]
      exact ⟨h3, fun hc => h1 hc.1⟩
    have hlower : notes.filter (fun n => n.staff = 2) = [] := by
      rw [List.filter_eq_nil_iff]
      intro n hn
      simpa using (h n hn).1
    have hL : grandLowerEvents notes md = [XEvent.fullRest 3 2 md] := by
      simp [grandLowerEvents, hten, hbass, hlower, generateFullMeasureRest]
    simp [generateGrandStaffMeasureXML, hL]

/-- Witness for C9: an empty voice list, and a measure whose upper
staff is empty (only a tenor note), at concrete inputs. -/
theorem C9_empty_voice_rest_witness :
    generateVoiceXMLAligned [] 1 1 1024 = [XEvent.fullRest 1 1 1024] ∧
    generateGrandStaffMeasureXML [nTenorOnly] 1024
      = XEvent.fullRest 1 1 1024 :: XEvent.backup 1024 ::
          grandLowerEvents [nTenorOnly] 1024 :=
  ⟨C9_empty_voice_rest.1 1 1 1024,
   C9_empty_voice_rest.2.2.1 [nTenorOnly] 1024 (by decide)⟩

/-! ### Lemmas on the insertion-ordered beat grouping (for C6) -/

theorem groupInsert_fst (gs : List (ℚ × List Note)) (k : ℚ) (n : Note) :
    (groupInsert gs k n).map Prod.fst
      = if gs.any (fun g => g.1 = k) then gs.map Prod.fst else gs.map Prod.fst ++ [k] := by
  unfold groupInsert
  split
  · rw [List.map_map]
    apply List.map_congr_left
    intro g hg
    by_cases hgk : g.1 = k <;> simp [hgk]
  · simp

theorem groupInsert_keys_nodup (gs : List (ℚ × List Note)) (k : ℚ) (n : Note)
    (h : (gs.map Prod.fst).Nodup) : ((groupInsert gs k n).map Prod.fst).Nodup := by
  rw [groupInsert_fst]
  split
  · exact h
  · next hany =>
    have hk : k ∉ gs.map Prod.fst := by
      intro hmem
      rcases List.mem_map.mp hmem with ⟨g, hg, hfst⟩
      have : gs.any (fun g => g.1 = k) = true :=
        List.any_eq_true.mpr ⟨g, hg, by simp [hfst]⟩
      exact hany this
    simp [List.nodup_append, h, hk]

theorem groupNotesByBeat_keys_nodup (l : List Note) :
    ((groupNotesByBeat l).map Prod.fst).Nodup := by
  suffices H : ∀ gs : List (ℚ × List Note), (gs.map Prod.fst).Nodup →
      ((l.foldl (fun gs n => groupInsert gs (quantBeat n) n) gs).map Prod.fst).Nodup by
    exact H [] (by simp)
  induction l with
  | nil => intro gs h; simpa using h
  | cons n rest ih =>
    intro gs h
    exact ih _ (groupInsert_keys_nodup _ _ _ h)

theorem groupInsert_mem_subset (gs : List (ℚ × List Note)) (k : ℚ) (n : Note)
    {k' : ℚ} {g' : List Note} (h : (k', g') ∈ gs) :
    ∃ g'', (k', g'') ∈ groupInsert gs k n ∧ ∀ x ∈ g', x ∈ g'' := by
  unfold groupInsert
  split
  · by_cases hk : k' = k
    · refine ⟨g' ++ [n], ?_, fun x hx => List.mem_append_left _ hx⟩
      have := List.mem_map_of_mem (fun g => if g.1 = k then (g.1, g.2 ++ [n]) else g) h
      simpa [hk] using this
    · refine ⟨g', ?_, fun x hx => hx⟩
      have := List.mem_map_of_mem (fun g => if g.1 = k then (g.1, g.2 ++ [n]) else g) h
      simpa [hk] using this
  · exact ⟨g', List.mem_append_left _ h, fun x hx => hx⟩

theorem groupInsert_mem_new (gs : List (ℚ × List Note)) (k : ℚ) (n : Note) :
    ∃ g, (k, g) ∈ groupInsert gs k n ∧ n ∈ g := by
  unfold groupInsert
  split
  · next hany =>
    rcases List.any_eq_true.mp hany with ⟨⟨k0, g0⟩, hg0, hk0⟩
    simp only [decide_eq_true_eq] at hk0
    refine ⟨g0 ++ [n], ?_, by simp⟩
    have := List.mem_map_of_mem (fun g => if g.1 = k then (g.1, g.2 ++ [n]) else g) hg0
    simpa [hk0] using this
  · exact ⟨[n], by simp, by simp⟩

theorem groupNotesByBeat_mem_aux (n : Note) :
    ∀ (l : List Note) (gs : List (ℚ × List Note)),
      ((∃ k g, (k, g) ∈ gs ∧ n ∈ g) ∨ n ∈ l) →
      ∃ k g, (k, g) ∈ l.foldl (fun gs m => groupInsert gs (quantBeat m) m) gs ∧ n ∈ g := by
  intro l
  induction l with
  | nil =>
    intro gs h
    rcases h with h | h
    · simpa using h
    · cases h
  | cons m rest ih =>
    intro gs h
    rw [List.foldl_cons]
    rcases h with ⟨k, g, hg, hn⟩ | h
    · rcases groupInsert_mem_subset gs (quantBeat m) m hg with ⟨g'', hg'', hsub⟩
      exact ih _ (Or.inl ⟨k, g'', hg'', hsub n hn⟩)
    · rcases List.mem_cons.mp h with rfl | hrest
      · rcases groupInsert_mem_new gs (quantBeat n) n with ⟨g, hg, hn⟩
        exact ih _ (Or.inl ⟨quantBeat n, g, hg, hn⟩)
      · exact ih _ (Or.inr hrest)

theorem groupNotesByBeat_mem (l : List Note) (n : Note) (hn : n ∈ l) :
    ∃ k g, (k, g) ∈ groupNotesByBeat l ∧ n ∈ g :=
  groupNotesByBeat_mem_aux n l [] (Or.inr hn)

theorem groupInsert_nonempty (gs : List (ℚ × List Note)) (k : ℚ) (n : Note)
    (h : ∀ p ∈ gs, p.2 ≠ []) : ∀ p ∈ groupInsert gs k n, p.2 ≠ [] := by
  unfold groupInsert
  split
  · intro p hp
    rcases List.mem_map.mp hp with ⟨q, hq, hpe⟩
    by_cases hqk : q.1 = k
    · simp only [hqk, if_true] at hpe
      rw [← hpe]
      simp
    · simp only [hqk, if_false] at hpe
      rw [← hpe]
      exact h q hq
  · intro p hp
    rcases List.mem_append.mp hp with hp | hp
    · exact h p hp
    · simp only [List.mem_singleton] at hp
      rw [hp]
      simp

theorem groupNotesByBeat_nonempty (l : List Note) :
    ∀ p ∈ groupNotesByBeat l, p.2 ≠ [] := by
  suffices H : ∀ gs : List (ℚ × List Note), (∀ p ∈ gs, p.2 ≠ []) →
      ∀ p ∈ l.foldl (fun gs n => groupInsert gs (quantBeat n) n) gs, p.2 ≠ [] by
    exact H [] (by simp)
  induction l with
  | nil => intro gs h; simpa using h
  | cons n rest ih =>
    intro gs h
    exact ih _ (groupInsert_nonempty _ _ _ h)

theorem find?_of_mem_keys_nodup {gs : List (ℚ × List Note)} {k : ℚ} {g : List Note}
    (hnd : (gs.map Prod.fst).Nodup) (h : (k, g) ∈ gs) :
    gs.find? (fun g' => g'.1 = k) = some (k, g) := by
  induction gs with
  | nil => cases h
  | cons p rest ih =>
    rw [List.map_cons, List.nodup_cons] at hnd
    by_cases hp : p.1 = k
    · have hpe : p = (k, g) := by
        rcases List.mem_cons.mp h with rfl | hmem
        · rfl
        · exfalso
          apply hnd.1
          rw [hp]
          exact List.mem_map_of_mem Prod.fst hmem
      rw [hpe]
      exact List.find?_cons_of_pos _ (by simp)
    · have hne : (k, g) ≠ p := fun he => hp (by rw [← he])
      have hmem : (k, g) ∈ rest := by
        rcases List.mem_cons.mp h with he | hmem
        · exact absurd he.symm (Ne.symm hne)
        · exact hmem
      rw [List.find?_cons_of_neg _ (by simp [hp]), ih hnd.2 hmem]

theorem extractStep_foldl (beatGroups : List (ℚ × List Note)) (bassFirst : Bool) :
    ∀ (bs : List ℚ) (acc : List Note × List Note),
      bs.foldl (extractStep beatGroups bassFirst) acc
        = (acc.1 ++ bs.flatMap (primOf beatGroups bassFirst),
           acc.2 ++ bs.flatMap (secOf beatGroups bassFirst)) := by
  intro bs
  induction bs with
  | nil => intro acc; simp
  | cons b rest ih =>
    intro acc
    rw [List.foldl_cons, ih]
    unfold extractStep primOf secOf
    cases hfind : (beatGroups.find? (fun g => g.1 = b)).map Prod.snd with
    | none => simp [hfind]
    | some g =>
      cases hps : pitchSort bassFirst g with
      | nil => simp [hfind, hps]
      | cons top rest' => simp [hfind, hps]

theorem pitchSort_perm (bf : Bool) (g : List Note) : List.Perm (pitchSort bf g) g := by
  unfold pitchSort
  split <;> exact List.perm_insertionSort _ _

theorem pitchSort_sorted_true (g : List Note) :
    List.Sorted (fun a b : Note => pitchToMidi a.pitch ≤ pitchToMidi b.pitch)
      (pitchSort true g) := by
  haveI : IsTotal Note (fun a b : Note => pitchToMidi a.pitch ≤ pitchToMidi b.pitch) :=
    ⟨fun a b => le_total _ _⟩
  haveI : IsTrans Note (fun a b : Note => pitchToMidi a.pitch ≤ pitchToMidi b.pitch) :=
    ⟨fun a b c hab hbc => le_trans hab hbc⟩
  simpa [pitchSort] using List.sorted_insertionSort _ g

theorem pitchSort_sorted_false (g : List Note) :
    List.Sorted (fun a b : Note => pitchToMidi b.pitch ≤ pitchToMidi a.pitch)
      (pitchSort false g) := by
  haveI : IsTotal Note (fun a b : Note => pitchToMidi b.pitch ≤ pitchToMidi a.pitch) :=
    ⟨fun a b => le_total _ _⟩
  haveI : IsTrans Note (fun a b : Note => pitchToMidi b.pitch ≤ pitchToMidi a.pitch) :=
    ⟨fun a b c hab hbc => le_trans hbc hab⟩
  simpa [pitchSort] using List.sorted_insertionSort _ g

theorem pitchSort_head_extreme {bf : Bool} {g : List Note} {top : Note} {rest : List Note}
    (h : pitchSort bf g = top :: rest) :
    ∀ x ∈ g, (if bf then pitchToMidi top.pitch ≤ pitchToMidi x.pitch
              else pitchToMidi x.pitch ≤ pitchToMidi top.pitch) := by
  intro x hx
  have hxm : x ∈ top :: rest := by
    rw [← h]
    exact (pitchSort_perm bf g).mem_iff.mpr hx
  cases bf with
  | true =>
    have hs := pitchSort_sorted_true g
    rw [h] at hs
    simp only [if_true]
    rcases List.mem_cons.mp hxm with rfl | hr
    · exact le_refl _
    · exact (List.sorted_cons.mp hs).1 x hr
  | false =>
    have hs := pitchSort_sorted_false g
    rw [h] at hs
    simp only [Bool.false_eq_true, if_false]
    rcases List.mem_cons.mp hxm with rfl | hr
    · exact le_refl _
    · exact (List.sorted_cons.mp hs).1 x hr

/-- Helper: the per-group specification of `extractVoicesByPitch`. -/
theorem extractVoices_group_spec (notes : List Note) (bassFirst : Bool) :
    ∀ (k : ℚ) (g : List Note), (k, g) ∈ groupNotesByBeat (notes.filter isMain) →
      ∃ top rest, pitchSort bassFirst g = top :: rest ∧
        top ∈ (extractVoicesByPitch notes bassFirst).1 ∧
        (∀ x ∈ g, if bassFirst then pitchToMidi top.pitch ≤ pitchToMidi x.pitch
                  else pitchToMidi x.pitch ≤ pitchToMidi top.pitch) ∧
        (∀ x ∈ rest, x ∈ (extractVoicesByPitch notes bassFirst).2) := by
  intro k g hkg
  have hmainne : notes.filter isMain ≠ [] := by
    intro hempty
    rw [hempty] at hkg
    simpa [groupNotesByBeat] using hkg
  have hnotesne : notes ≠ [] := by
    intro hempty
    apply hmainne
    rw [hempty]
    rfl
  have hne1 : notes.isEmpty = false := by
    simpa [List.isEmpty_iff] using hnotesne
  have hne2 : (notes.filter isMain).isEmpty = false := by
    simpa [List.isEmpty_iff] using hmainne
  have hext : extractVoicesByPitch notes bassFirst
      = ((((groupNotesByBeat (notes.filter isMain)).map Prod.fst).insertionSort
            (· ≤ ·)).flatMap (primOf (groupNotesByBeat (notes.filter isMain)) bassFirst),
         (((groupNotesByBeat (notes.filter isMain)).map Prod.fst).insertionSort
            (· ≤ ·)).flatMap (secOf (groupNotesByBeat (notes.filter isMain)) bassFirst)) := by
    unfold extractVoicesByPitch
    simp only [hne1, hne2, Bool.false_eq_true, if_false, extractStep_foldl, List.nil_append]
  have hnd := groupNotesByBeat_keys_nodup (notes.filter isMain)
  have hfind := find?_of_mem_keys_nodup hnd hkg
  have hgne : g ≠ [] := groupNotesByBeat_nonempty _ _ hkg
  obtain ⟨top, rest, hps⟩ : ∃ t r, pitchSort bassFirst g = t :: r := by
    cases hps0 : pitchSort bassFirst g with
    | nil =>
      exfalso
      apply hgne
      have hlen := (pitchSort_perm bassFirst g).length_eq
      rw [hps0] at hlen
      exact List.length_eq_zero.mp hlen.symm
    | cons t r => exact ⟨t, r, rfl⟩
  have hkmem : k ∈ ((groupNotesByBeat (notes.filter isMain)).map Prod.fst).insertionSort
      (· ≤ ·) :=
    (List.perm_insertionSort _ _).mem_iff.mpr (List.mem_map_of_mem Prod.fst hkg)
  refine ⟨top, rest, hps, ?_, pitchSort_head_extreme hps, ?_⟩
  · rw [hext]
    exact List.mem_flatMap.mpr ⟨k, hkmem, by simp [primOf, hfind, hps]⟩
  · intro x hx
    rw [hext]
    exact List.mem_flatMap.mpr ⟨k, hkmem, by simp [secOf, hfind, hps, hx]⟩

/-- C6 (amended): rule-tier voice separation groups the main notes of a
staff on the quarter-beat grid; within every group the pitch extreme
(highest when `bassFirst = false`, i.e. staff 1; lowest when
`bassFirst = true`, i.e. staff 2) goes to the primary line and all
remaining notes of the group go to the secondary line; a single-note
group is likewise assigned to the primary line (its only note is its
extreme), not deferred. -/
theorem C6_voice_separation (notes : List Note) (bassFirst : Bool) :
    (∀ (k : ℚ) (g : List Note), (k, g) ∈ groupNotesByBeat (notes.filter isMain) →
      ∃ top rest, pitchSort bassFirst g = top :: rest ∧
        top ∈ (extractVoicesByPitch notes bassFirst).1 ∧
        (∀ x ∈ g, if bassFirst then pitchToMidi top.pitch ≤ pitchToMidi x.pitch
                  else pitchToMidi x.pitch ≤ pitchToMidi top.pitch) ∧
        (∀ x ∈ rest, x ∈ (extractVoicesByPitch notes bassFirst).2)) ∧
    (∀ n ∈ notes.filter isMain,
      n ∈ (extractVoicesByPitch notes bassFirst).1 ∨
        n ∈ (extractVoicesByPitch notes bassFirst).2) := by
  refine ⟨extractVoices_group_spec notes bassFirst, ?_⟩
  intro n hn
  rcases groupNotesByBeat_mem _ n hn with ⟨k, g, hkg, hng⟩
  rcases extractVoices_group_spec notes bassFirst k g hkg with
    ⟨top, rest, hps, htop, _, hrest⟩
  have hmem : n ∈ top :: rest := by
    rw [← hps]
    exact (pitchSort_perm bassFirst g).mem_iff.mpr hng
  rcases List.mem_cons.mp hmem with rfl | hr
  · exact Or.inl htop
  · exact Or.inr (hrest n hr)

set_option maxRecDepth 4000 in
/-- Witness for C6: a two-note chord on beat 1 of staff 1. -/
theorem C6_voice_separation_witness :
    ∃ top rest, pitchSort false C6notes = top :: rest ∧
      top ∈ (extractVoicesByPitch C6notes false).1 ∧
      (∀ x ∈ C6notes, if false then pitchToMidi top.pitch ≤ pitchToMidi x.pitch
                      else pitchToMidi x.pitch ≤ pitchToMidi top.pitch) ∧
      (∀ x ∈ rest, x ∈ (extractVoicesByPitch C6notes false).2) :=
  (C6_voice_separation C6notes false).1 1 C6notes (by with_unfolding_all decide)

set_option maxRecDepth 4000 in
/-- Counterexample for C6: a single-note beat group is assigned to the
primary voice (it becomes the soprano), rather than being deferred as
ambiguous without a voice assignment. -/
theorem C6_single_note_counterexample :
    ((groupNotesByBeat ([mkNote 1 'C' 5 1 1024].filter isMain)).map
        (fun g => g.2.length) = [1]) ∧
    (separateVoices [mkNote 1 'C' 5 1 1024] []).soprano
      = [{ mkNote 1 'C' 5 1 1024 with voicePart := some VoicePart.soprano }] := by
  with_unfolding_all decide

set_option maxRecDepth 4000 in
/-- Counterexample for C9: the (staff 1, voice 1) pair of this measure
has an empty note list, yet the exporter emits no voice-1 event at all
(its sibling alto voice is nonempty, so the soprano voice is skipped
rather than rendered as a full-measure rest). -/
theorem C9_skipped_voice_counterexample :
    ([nAltoOnly].filter (fun n => n.staff = 1 ∧ n.voice = 1) = []) ∧
    ((generateGrandStaffMeasureXML [nAltoOnly] 1024).countP
        (fun e => eventVoice e = some 1)) = 0 ∧ (0 : ℕ) ≠ 1 := by
  with_unfolding_all decide

/-! ### Lemmas on the Level-4 loop (for C2 and C4) -/

theorem sortByStartBeat_perm (l : List Note) : List.Perm (sortByStartBeat l) l :=
  List.perm_insertionSort _ _

theorem level4Go_mem_verbatim (n : Note) :
    ∀ (l : List Note) (keys : List SlotKey), n ∈ l →
      (n.isLocked = true ∨ 512 ≤ n.duration.ticks) → n ∈ (level4Go l keys).1 := by
  intro l
  induction l with
  | nil => intro keys h; cases h
  | cons m rest ih =>
    intro keys hmem hcond
    rcases List.mem_cons.mp hmem with rfl | hr
    · unfold level4Go
      rcases hcond with hl | ht
      · simp [hl]
      · by_cases hl : n.isLocked <;> simp [hl, ht]
    · unfold level4Go
      by_cases hl : m.isLocked
      · simp only [hl, if_true]
        exact List.mem_cons_of_mem _ (ih keys hr hcond)
      · by_cases ht : m.duration.ticks ≥ 512
        · simp only [hl, ht, if_true, if_false, Bool.false_eq_true]
          exact List.mem_cons_of_mem _ (ih keys hr hcond)
        · simp only [hl, ht, if_false, Bool.false_eq_true]
          cases htup : m.duration.tuplet with
          | some t =>
            by_cases hk : keys.contains (tupletKey m t)
            · simp only [hk, if_true]
              exact ih keys hr hcond
            · simp only [hk, if_false, Bool.false_eq_true]
              exact List.mem_cons_of_mem _ (ih _ hr hcond)
          | none =>
            by_cases hk : keys.contains (eighthKey m)
            · simp only [hk, if_true]
              exact ih keys hr hcond
            · simp only [hk, if_false, Bool.false_eq_true]
              exact List.mem_cons_of_mem _ (ih _ hr hcond)

theorem level4Shape_mono {l : List Note} {m : Note} {x : Note}
    (h : level4Shape l x) : level4Shape (m :: l) x := by
  rcases h with ⟨n, hn, hx⟩
  exact ⟨n, List.mem_cons_of_mem _ hn, hx⟩

theorem level4Go_out_shape :
    ∀ (l : List Note) (keys : List SlotKey) (x : Note),
      x ∈ (level4Go l keys).1 → level4Shape l x := by
  intro l
  induction l with
  | nil => intro keys x h; simp [level4Go] at h
  | cons m rest ih =>
    intro keys x hx
    unfold level4Go at hx
    by_cases hl : m.isLocked
    · simp only [hl, if_true, List.mem_cons] at hx
      rcases hx with rfl | hx
      · exact ⟨_, List.mem_cons_self _ _, Or.inl rfl⟩
      · exact level4Shape_mono (ih keys x hx)
    · by_cases ht : m.duration.ticks ≥ 512
      · simp only [hl, ht, if_true, if_false, Bool.false_eq_true, List.mem_cons] at hx
        rcases hx with rfl | hx
        · exact ⟨_, List.mem_cons_self _ _, Or.inl rfl⟩
        · exact level4Shape_mono (ih keys x hx)
      · simp only [hl, ht, if_false, Bool.false_eq_true] at hx
        cases htup : m.duration.tuplet with
        | some t =>
          rw [htup] at hx
          by_cases hk : keys.contains (tupletKey m t)
          · simp only [hk, if_true] at hx
            exact level4Shape_mono (ih keys x hx)
          · simp only [hk, if_false, Bool.false_eq_true, List.mem_cons] at hx
            rcases hx with rfl | hx
            · refine ⟨m, List.mem_cons_self _ _, Or.inr ⟨by simpa using hl, by omega,
                Or.inr ⟨t, htup, rfl⟩⟩⟩
            · exact level4Shape_mono (ih _ x hx)
        | none =>
          rw [htup] at hx
          by_cases hk : keys.contains (eighthKey m)
          · simp only [hk, if_true] at hx
            exact level4Shape_mono (ih keys x hx)
          · simp only [hk, if_false, Bool.false_eq_true, List.mem_cons] at hx
            rcases hx with rfl | hx
            · refine ⟨m, List.mem_cons_self _ _, Or.inr ⟨by simpa using hl, by omega,
                Or.inl ⟨htup, rfl⟩⟩⟩
            · exact level4Shape_mono (ih _ x hx)

theorem level4Go_keys_nodup :
    ∀ (l : List Note) (keys : List SlotKey), keys.Nodup → ((level4Go l keys).2).Nodup := by
  intro l
  induction l with
  | nil => intro keys h; simpa [level4Go] using h
  | cons m rest ih =>
    intro keys h
    unfold level4Go
    by_cases hl : m.isLocked
    · simp only [hl, if_true]
      exact ih keys h
    · by_cases ht : m.duration.ticks ≥ 512
      · simp only [hl, ht, if_true, if_false, Bool.false_eq_true]
        exact ih keys h
      · simp only [hl, ht, if_false, Bool.false_eq_true]
        cases htup : m.duration.tuplet with
        | some t =>
          by_cases hk : keys.contains (tupletKey m t)
          · simp only [hk, if_true]
            exact ih keys h
          · simp only [hk, if_false, Bool.false_eq_true]
            apply ih
            have hnk : tupletKey m t ∉ keys := by
              simpa using hk
            simp [List.nodup_append, h, hnk]
        | none =>
          by_cases hk : keys.contains (eighthKey m)
          · simp only [hk, if_true]
            exact ih keys h
          · simp only [hk, if_false, Bool.false_eq_true]
            apply ih
            have hnk : eighthKey m ∉ keys := by
              simpa using hk
            simp [List.nodup_append, h, hnk]

theorem level4Go_count :
    ∀ (l : List Note) (keys : List SlotKey),
      (level4Go l keys).1.length + keys.length
        = l.countP isVerbatimL4 + (level4Go l keys).2.length := by
  intro l
  induction l with
  | nil => intro keys; simp [level4Go]
  | cons m rest ih =>
    intro keys
    unfold level4Go
    by_cases hl : m.isLocked
    · simp only [hl, if_true]
      have := ih keys
      simp only [isVerbatimL4] at this
      simp [List.countP_cons, isVerbatimL4, hl]
      omega
    · by_cases ht : m.duration.ticks ≥ 512
      · simp only [hl, ht, if_true, if_false, Bool.false_eq_true]
        have := ih keys
        simp only [List.length_cons, List.countP_cons, isVerbatimL4, hl, ht]
        simp [isVerbatimL4, hl, ht] at this ⊢
        omega
      · simp only [hl, ht, if_false, Bool.false_eq_true]
        cases htup : m.duration.tuplet with
        | some t =>
          by_cases hk : keys.contains (tupletKey m t)
          · simp only [hk, if_true]
            have := ih keys
            simp only [List.countP_cons, isVerbatimL4, hl, ht]
            simp [isVerbatimL4, hl, ht] at this ⊢
            omega
          · simp only [hk, if_false, Bool.false_eq_true]
            have := ih (keys ++ [tupletKey m t])
            simp only [List.length_append, List.length_singleton] at this
            simp only [List.countP_cons, isVerbatimL4, hl, ht, List.length_cons]
            simp [isVerbatimL4, hl, ht] at this ⊢
            omega
        | none =>
          by_cases hk : keys.contains (eighthKey m)
          · simp only [hk, if_true]
            have := ih keys
            simp only [List.countP_cons, isVerbatimL4, hl, ht]
            simp [isVerbatimL4, hl, ht] at this ⊢
            omega
          · simp only [hk, if_false, Bool.false_eq_true]
            have := ih (keys ++ [eighthKey m])
            simp only [List.length_append, List.length_singleton] at this
            simp only [List.countP_cons, isVerbatimL4, hl, ht, List.length_cons]
            simp [isVerbatimL4, hl, ht] at this ⊢
            omega

theorem forall₂_mem_left {R : Note → Note → Prop} :
    ∀ {l1 l2 : List Note}, List.Forall₂ R l1 l2 → ∀ a ∈ l1, ∃ b ∈ l2, R a b := by
  intro l1 l2 h
  induction h with
  | nil => intro a ha; cases ha
  | cons hR htl ih =>
    intro a ha
    rcases List.mem_cons.mp ha with rfl | hr
    · exact ⟨_, List.mem_cons_self _ _, hR⟩
    · rcases ih a hr with ⟨b, hb, hRb⟩
      exact ⟨b, List.mem_cons_of_mem _ hb, hRb⟩

/-- C2 (amended): in single-staff simplification at Level 4 or 5, every
note flagged `isLocked` (and not an embellishment) appears in the
output with pitch, startBeat and duration unmodified.  The grand-staff
composition does NOT extend this to alto/tenor at Level 4: their
strong-beat reduction has no lock check and repositions or drops locked
notes (see the counterexample). -/
theorem C2_lock_preservation (m : Measure) (ts : TimeSignature) (n : Note) (level : ℤ)
    (hlevel : level = 4 ∨ level = 5) (hn : n ∈ m.notes) (hlock : n.isLocked = true)
    (hemb : n.embellishment = none) :
    ∃ n' ∈ (applySingleStaffSimplification m level ts).notes,
      n'.pitch = n.pitch ∧ n'.startBeat = n.startBeat ∧ n'.duration = n.duration := by
  rcases hlevel with rfl | rfl
  · have h4 : applySingleStaffSimplification m 4 ts = applyLevel4 m ts := by
      simp [applySingleStaffSimplification]
    rw [h4]
    have hmem : n ∈ (sortByStartBeat m.notes).filter isMain :=
      List.mem_filter.mpr ⟨(sortByStartBeat_perm m.notes).mem_iff.mpr hn,
        by simp [isMain, hemb]⟩
    have hout := level4Go_mem_verbatim n _ [] hmem (Or.inl hlock)
    exact ⟨n, hout, rfl, rfl, rfl⟩
  · have h5 : applySingleStaffSimplification m 5 ts = applyLevel5 m ts := by
      simp [applySingleStaffSimplification]
    rw [h5]
    have hmem : n ∈ m.notes.filter isMain :=
      List.mem_filter.mpr ⟨hn, by simp [isMain, hemb]⟩
    rcases forall₂_mem_left (applyLevel5_core m ts) n hmem with ⟨b, hb, hR⟩
    exact ⟨b, hb, hR.1, hR.2.1, hR.2.2.1⟩

/-- Witness for C2: a locked quarter note survives Level 4 verbatim. -/
theorem C2_lock_preservation_witness :
    ∃ n' ∈ (applySingleStaffSimplification C2singleMeasure 4 ts44).notes,
      n'.pitch = C2lockedNote.pitch ∧ n'.startBeat = C2lockedNote.startBeat ∧
        n'.duration = C2lockedNote.duration :=
  C2_lock_preservation C2singleMeasure ts44 C2lockedNote 4 (Or.inl rfl)
    (by simp [C2singleMeasure]) rfl rfl

set_option maxRecDepth 16000 in
/-- Counterexample for C2: the Analyzer locks the dotted-eighth C5 at
beat 2 (dotted_rhythm), but the grand-staff Level-4 output contains no
note with that pitch, original startBeat and duration: the note lands
in the alto voice, whose strong-beat reduction moves it to beat 1 and
stretches it to a half note. -/
theorem C2_grand_staff_counterexample :
    ((lockMeasure ts44 C2measure).notes.any (fun n =>
      decide (n.pitch = C2pitchC5 ∧ n.startBeat = 2 ∧ n.duration.ticks = 768 ∧
        n.isLocked = true))) = true ∧
    ((applyGrandStaffLevel4 (lockMeasure ts44 C2measure) ts44 ⟨none, none⟩).notes.all
      (fun n => !(decide (n.pitch = C2pitchC5 ∧ n.startBeat = 2 ∧
        n.duration.ticks = 768)))) = true := by
  with_unfolding_all decide

/-- C4 (amended): `applyLevel4` keeps every locked and every
at-least-eighth non-embellishment note verbatim; every output note is
either such a verbatim note or the snap of a shorter non-locked note to
the start of the eighth-note slot containing it (`Math.floor`, not the
nearest slot — see the counterexample), or of the containing tuplet
subdivision; the recorded slot keys are pairwise distinct and the
output has exactly one note per verbatim input plus one per recorded
slot key (at most one note per slot); rests shorter than an eighth are
lengthened to an eighth. -/
theorem C4_level4_spec (m : Measure) (ts : TimeSignature) :
    (∀ n ∈ m.notes, n.embellishment = none →
      (n.isLocked = true ∨ 512 ≤ n.duration.ticks) → n ∈ (applyLevel4 m ts).notes) ∧
    (∀ x ∈ (applyLevel4 m ts).notes, ∃ n, n ∈ m.notes ∧ n.embellishment = none ∧
      (x = n ∨ (n.isLocked = false ∧ n.duration.ticks < 512 ∧
        ((n.duration.tuplet = none ∧ x = eighthSnap n) ∨
         (∃ t, n.duration.tuplet = some t ∧ x = tupletSnap n t))))) ∧
    ((level4Go ((sortByStartBeat m.notes).filter isMain) []).2).Nodup ∧
    ((applyLevel4 m ts).notes.length
      = ((sortByStartBeat m.notes).filter isMain).countP isVerbatimL4
        + ((level4Go ((sortByStartBeat m.notes).filter isMain) []).2).length) ∧
    (applyLevel4 m ts).rests = m.rests.map lengthenRest := by
  refine ⟨?_, ?_, ?_, ?_, rfl⟩
  · intro n hn hemb hcond
    have hmem : n ∈ (sortByStartBeat m.notes).filter isMain :=
      List.mem_filter.mpr ⟨(sortByStartBeat_perm m.notes).mem_iff.mpr hn,
        by simp [isMain, hemb]⟩
    exact level4Go_mem_verbatim n _ [] hmem hcond
  · intro x hx
    rcases level4Go_out_shape _ [] x hx with ⟨n, hnf, hshape⟩
    rcases List.mem_filter.mp hnf with ⟨hsorted, hmain⟩
    refine ⟨n, (sortByStartBeat_perm m.notes).mem_iff.mp hsorted, ?_, hshape⟩
    simpa [isMain] using hmain
  · exact level4Go_keys_nodup _ [] List.nodup_nil
  · have := level4Go_count ((sortByStartBeat m.notes).filter isMain) []
    simpa using this

/-- Witness for C4: the locked quarter note is kept verbatim. -/
theorem C4_level4_spec_witness :
    C2lockedNote ∈ (applyLevel4 C2singleMeasure ts44).notes :=
  (C4_level4_spec C2singleMeasure ts44).1 C2lockedNote (by simp [C2singleMeasure]) rfl
    (Or.inl rfl)

set_option maxRecDepth 8000 in
/-- Counterexample for C4: a 32nd note at beat 1.375 is snapped DOWN to
slot 1 by `Math.floor(startBeat * 2) / 2`, while the nearest eighth
slot of 1.375 is 1.5. -/
theorem C4_floor_not_nearest_counterexample :
    ((applyLevel4 C4measure ts44).notes.map (fun n => n.startBeat)) = [1] ∧
    nearestEighthSlotSpec (11/8 : ℚ) = 3/2 ∧ ((1 : ℚ) ≠ 3/2) := by
  with_unfolding_all decide

theorem voiceDurationSum_append (a b : List XEvent) :
    voiceDurationSum (a ++ b) = voiceDurationSum a + voiceDurationSum b := by
  simp [voiceDurationSum]

theorem restsMap_sum (voice staff : ℤ) (l : List ℤ) :
    voiceDurationSum (l.map (XEvent.rest voice staff)) = l.sum := by
  induction l with
  | nil => simp [voiceDurationSum]
  | cons x rest ih => simp [voiceDurationSum, XEvent.durContribution] at ih ⊢; omega

theorem chordEvents_sum (voice staff : ℤ) (l : List Note) :
    voiceDurationSum (l.map (fun c => XEvent.note voice staff (noteXmlDur c) true)) = 0 := by
  induction l with
  | nil => simp [voiceDurationSum]
  | cons x rest ih => simpa [voiceDurationSum, XEvent.durContribution] using ih

theorem restsFor_sum : ∀ (N : ℕ) (g : ℤ), g.toNat ≤ N → 0 ≤ g → g % 32 = 0 →
    (restsFor g).sum = g := by
  intro N
  induction N with
  | zero =>
    intro g hN h0 hdvd
    have hg : g = 0 := by omega
    subst hg
    rw [restsFor]
    simp
  | succ N ih =>
    intro g hN h0 hdvd
    by_cases hg0 : g ≤ 0
    · have hg : g = 0 := le_antisymm hg0 h0
      subst hg
      rw [restsFor]
      simp
    · push_neg at hg0
      have hge : 32 ≤ g := by omega
      rw [restsFor, dif_neg (by omega)]
      cases hfind : restValues.find? (fun v => v ≤ g) with
      | none =>
        exfalso
        have h32 := List.find?_eq_none.mp hfind 32 (by simp [restValues])
        simp at h32
        omega
      | some v =>
        have hmem := List.mem_of_find?_eq_some hfind
        have hle : v ≤ g := by simpa using List.find?_some hfind
        have hv : v = 1024 ∨ v = 512 ∨ v = 256 ∨ v = 128 ∨ v = 64 ∨ v = 32 := by
          simpa [restValues] using hmem
        have hvd : v % 32 = 0 := by rcases hv with h|h|h|h|h|h <;> omega
        have hvpos : 0 < v := by rcases hv with h|h|h|h|h|h <;> omega
        simp only [List.sum_cons]
        rw [ih (g - v) (by omega) (by omega) (by omega)]
        ring

theorem serVoiceGo_sum (voice staff md : ℤ) (hm : md % 32 = 0) :
    ∀ (gs : List NGroup) (cur : ℤ), alignedChainB md gs cur = true →
      cur % 32 = 0 → voiceDurationSum (serVoiceGo voice staff md gs cur) = md - cur := by
  intro gs
  induction gs with
  | nil =>
    intro cur hchain hc
    simp only [alignedChainB, decide_eq_true_eq] at hchain
    unfold serVoiceGo
    by_cases hlt : cur < md
    · simp only [hlt, if_true]
      rw [restsMap_sum, restsFor_sum (md - cur).toNat (md - cur) le_rfl (by omega) (by omega)]
    · have hcm : cur = md := le_antisymm hchain (not_lt.mp hlt)
      simp [hlt, hcm, voiceDurationSum]
  | cons g gs ih =>
    intro cur hchain hc
    simp only [alignedChainB, Bool.and_eq_true, decide_eq_true_eq] at hchain
    obtain ⟨⟨⟨hle, hdp⟩, hdd⟩, hrest⟩ := hchain
    unfold serVoiceGo
    rw [voiceDurationSum_append, voiceDurationSum_append]
    have hgap : voiceDurationSum
        (if g.position > cur then (restsFor (g.position - cur)).map (XEvent.rest voice staff)
         else []) = g.position - cur := by
      by_cases hgt : g.position > cur
      · simp only [hgt, if_true]
        rw [restsMap_sum,
          restsFor_sum (g.position - cur).toNat (g.position - cur) le_rfl (by omega) (by omega)]
      · have : g.position = cur := le_antisymm (not_lt.mp hgt) hle
        simp [hgt, this, voiceDurationSum]
    have hnotes : voiceDurationSum
        (match g.notes with
         | [] => ([] : List XEvent)
         | n :: chordRest =>
           XEvent.note voice staff (noteXmlDur n) false ::
             chordRest.map (fun c => XEvent.note voice staff (noteXmlDur c) true))
        = groupDur g := by
      cases hgn : g.notes with
      | nil => simp [voiceDurationSum, groupDur, hgn]
      | cons n chordRest =>
        have := chordEvents_sum voice staff chordRest
        simp only [groupDur, hgn]
        simp [voiceDurationSum, XEvent.durContribution] at this ⊢
        omega
    rw [hgap, hnotes, ih (g.position + groupDur g) hrest (by omega)]
    ring

/-- C1 (amended): the serialized durations of one voice of one measure
sum exactly to the nominal duration `md = beats * divisions` whenever
`md` and every note group's position and head duration lie on the 32nd
grid (multiples of `divisions / 8 = 32`) and consecutive groups neither
overlap nor overflow the measure (`alignedChainB`).  The greedy rest
filler only emits rests down to a 32nd, so any sub-32nd gap created by
tuplet rounding is silently dropped and closure fails — see the
counterexample. -/
theorem C1_duration_closure (notes : List Note) (voice staff md : ℤ)
    (hmd : md % 32 = 0)
    (hchain : alignedChainB md (groupNotesByPosition (sortByStartBeat notes)) 0 = true) :
    voiceDurationSum (generateVoiceXMLAligned notes voice staff md) = md := by
  unfold generateVoiceXMLAligned
  by_cases hne : notes.isEmpty
  · simp [hne, generateFullMeasureRest, voiceDurationSum, XEvent.durContribution]
  · simp only [hne, Bool.false_eq_true, if_false]
    have := serVoiceGo_sum voice staff md hmd
      (groupNotesByPosition (sortByStartBeat notes)) 0 hchain (by omega)
    simpa using this

/-- Witness for C1: a single quarter note at beat 1 in 4/4 closes to
1024 = 4 * 256. -/
theorem C1_duration_closure_witness :
    voiceDurationSum (generateVoiceXMLAligned [mkNote 1 'C' 4 1 1024] 1 1 1024) = 1024 :=
  C1_duration_closure [mkNote 1 'C' 4 1 1024] 1 1 1024 (by decide)
    (by with_unfolding_all decide)

set_option maxRecDepth 32000 in
/-- Counterexample for C1: a parsed triplet (ticks 341, startBeats 1,
4/3, 5/3) followed by quarters, passed through the Level-5 pipeline and
exported, serializes to 1023 ticks instead of beats * divisions = 1024:
the 1-tick gap before position 171 is below the 32nd-rest floor of the
greedy filler and is dropped. -/
theorem C1_rounding_counterexample :
    ((simplifyScore C1score C1cfg).measures.map (fun mm =>
      voiceDurationSum (generateSingleStaffMeasureXML mm.notes (4 * 256)))) = [1023] ∧
    (1023 : ℤ) ≠ 4 * 256 := by
  with_unfolding_all decide

/-- C8: Level-5 embellishment stripping is idempotent: applying
`applyLevel5` twice yields the same note list as applying it once. -/
theorem C8_level5_idempotent (m : Measure) (ts : TimeSignature) :
    (applyLevel5 (applyLevel5 m ts) ts).notes = (applyLevel5 m ts).notes := by
  have hmain : ∀ n ∈ (applyLevel5 m ts).notes, isMain n = true := by
    intro n hn
    simp [isMain, applyLevel5_all_main m ts n hn]
  conv_lhs => rw [applyLevel5]
  have hfilter : (applyLevel5 m ts).notes.filter isMain = (applyLevel5 m ts).notes :=
    List.filter_eq_self.mpr hmain
  have hembs : (applyLevel5 m ts).notes.filter (fun n => !isMain n) = [] := by
    rw [List.filter_eq_nil_iff]
    intro n hn
    simp [hmain n hn]
  simp [hfilter, hembs]

end MSS

